import Mathlib

/-!
Verification of the Biblatex-scripts repository (convertbibliography.py,
crossrefs.py, fixbibliography.py, references.py).

Bibliographic records are Python dictionaries mapping field names to string
values; a record set (`entries_dict` from bibtexparser) maps citation keys to
records.  Both are modelled as association lists with Python-dict semantics:
lookup finds the first (unique) matching key, assignment replaces in place or
appends, deletion removes the entry.
-/

/-- An association list with string keys, modelling a Python `dict`. -/
abbrev Dict (α : Type) : Type := List (String × α)

namespace Dict

/-- Python `d[k]` / `k in d`: first entry whose key is `k`. -/
def get {α : Type} : Dict α → String → Option α
  | [], _ => none
  | p :: rest, k => if p.1 = k then some p.2 else get rest k

/-- Python `d[k] = v`: replace the entry in place if present, else append. -/
def set {α : Type} : Dict α → String → α → Dict α
  | [], k, v => [(k, v)]
  | p :: rest, k, v => if p.1 = k then (k, v) :: rest else p :: set rest k v

/-- Python `del d[k]` (for unique keys): drop entries whose key is `k`. -/
def eraseKey {α : Type} : Dict α → String → Dict α
  | [], _ => []
  | p :: rest, k => if p.1 = k then eraseKey rest k else p :: eraseKey rest k

/-- The keys of the dictionary, in insertion order. -/
def keys {α : Type} (d : Dict α) : List String := d.map (·.1)

@[simp] theorem get_nil {α : Type} (k : String) : get ([] : Dict α) k = none := rfl

@[simp] theorem get_cons {α : Type} (p : String × α) (rest : Dict α) (k : String) :
    get (p :: rest) k = if p.1 = k then some p.2 else get rest k := rfl

@[simp] theorem keys_nil {α : Type} : keys ([] : Dict α) = [] := rfl

@[simp] theorem keys_cons {α : Type} (p : String × α) (rest : Dict α) :
    keys (p :: rest) = p.1 :: keys rest := rfl

theorem get_set_self {α : Type} (d : Dict α) (k : String) (v : α) :
    get (set d k v) k = some v := by
  induction d with
  | nil => simp [set, get]
  | cons p rest ih =>
    by_cases h : p.1 = k <;> simp [set, get, h, ih]

theorem get_set_ne {α : Type} (d : Dict α) (k k' : String) (v : α) (h : k' ≠ k) :
    get (set d k v) k' = get d k' := by
  have hks : ¬ (k = k') := fun hh => h hh.symm
  induction d with
  | nil => simp [set, get, hks]
  | cons p rest ih =>
    by_cases hp : p.1 = k
    · subst hp
      simp [set, get, hks]
    · simp only [set, if_neg hp, get_cons, ih]

theorem keys_set_of_mem {α : Type} (d : Dict α) (k : String) (v : α)
    (h : k ∈ keys d) : keys (set d k v) = keys d := by
  induction d with
  | nil => simp [keys] at h
  | cons p rest ih =>
    by_cases hp : p.1 = k
    · simp [set, hp]
    · have hmem : k ∈ keys rest := by
        simp only [keys_cons, List.mem_cons] at h
        rcases h with h | h
        · exact absurd h.symm hp
        · exact h
      simp [set, hp, ih hmem]

theorem get_eq_none_of_not_mem {α : Type} (d : Dict α) (k : String)
    (h : k ∉ keys d) : get d k = none := by
  induction d with
  | nil => rfl
  | cons p rest ih =>
    simp only [keys_cons, List.mem_cons, not_or] at h
    have hne : ¬ (p.1 = k) := fun hh => h.1 hh.symm
    simp [get, hne, ih h.2]

theorem mem_keys_of_get_eq_some {α : Type} (d : Dict α) (k : String) (v : α)
    (h : get d k = some v) : k ∈ keys d := by
  induction d with
  | nil => simp [get] at h
  | cons p rest ih =>
    by_cases hp : p.1 = k
    · simp [hp]
    · simp only [get_cons, if_neg hp] at h
      exact List.mem_cons_of_mem _ (ih h)

theorem isSome_get_of_mem_keys {α : Type} (d : Dict α) (k : String)
    (h : k ∈ keys d) : (get d k).isSome := by
  induction d with
  | nil => simp [keys] at h
  | cons p rest ih =>
    by_cases hp : p.1 = k
    · simp [get, hp]
    · have hmem : k ∈ keys rest := by
        simp only [keys_cons, List.mem_cons] at h
        rcases h with h | h
        · exact absurd h.symm hp
        · exact h
      simp [get, hp, ih hmem]

theorem mem_of_get_eq_some {α : Type} (d : Dict α) (k : String) (v : α)
    (h : get d k = some v) : (k, v) ∈ d := by
  induction d with
  | nil => simp [get] at h
  | cons p rest ih =>
    by_cases hp : p.1 = k
    · simp only [get_cons, if_pos hp] at h
      have hv : p.2 = v := by injection h
      rw [List.mem_cons]
      left
      rw [← hp, ← hv]
    · simp only [get_cons, if_neg hp] at h
      exact List.mem_cons_of_mem _ (ih h)

theorem get_eq_some_of_mem {α : Type} (d : Dict α) (k : String) (v : α)
    (hnd : (keys d).Nodup) (hm : (k, v) ∈ d) : get d k = some v := by
  induction d with
  | nil => simp at hm
  | cons p rest ih =>
    simp only [keys_cons, List.nodup_cons] at hnd
    rcases List.mem_cons.mp hm with hm' | hm'
    · subst hm'
      simp [get]
    · have hk : p.1 ≠ k := by
        intro hh
        exact hnd.1 (hh ▸ (List.mem_map_of_mem (·.1) hm'))
      simp [get, hk, ih hnd.2 hm']

theorem get_eraseKey_self {α : Type} (d : Dict α) (k : String) :
    get (eraseKey d k) k = none := by
  induction d with
  | nil => rfl
  | cons p rest ih =>
    by_cases hp : p.1 = k <;> simp [eraseKey, get, hp, ih]

theorem get_eraseKey_ne {α : Type} (d : Dict α) (k k' : String) (h : k' ≠ k) :
    get (eraseKey d k) k' = get d k' := by
  induction d with
  | nil => rfl
  | cons p rest ih =>
    by_cases hp : p.1 = k
    · subst hp
      have : ¬ (p.1 = k') := fun hh => h hh.symm
      simp [eraseKey, get, this, ih]
    · simp only [eraseKey, if_neg hp, get_cons, ih]

theorem get_mapVal {α β : Type} (d : Dict α) (g : α → β) (k : String) :
    get (d.map (fun p => (p.1, g p.2))) k = (get d k).map g := by
  induction d with
  | nil => rfl
  | cons p rest ih =>
    by_cases hp : p.1 = k <;> simp [get, hp, ih]

theorem get_filterKeys {α : Type} (d : Dict α) (P : String → Bool) (k : String) :
    get (d.filter (fun p => P p.1)) k = if P k then get d k else none := by
  induction d with
  | nil => simp [get]
  | cons p rest ih =>
    by_cases hp : p.1 = k
    · subst hp
      cases hP : P p.1 <;> simp [List.filter_cons, hP, get, ih]
    · cases hP : P p.1 <;> simp [List.filter_cons, hP, get, hp, ih]

end Dict

/-! ## fixbibliography.py : the key repair utility -/

/-- ASCII whitespace, the character class used by Python `str.strip()` /
`str.split()` (the repository only processes ASCII bibliography files). -/
def isWs (c : Char) : Bool :=
  c = ' ' || c = '\t' || c = '\n' || c = '\r' || c = '\x0b' || c = '\x0c'

/-- Python `str.strip()`: remove leading and trailing whitespace. -/
def stripChars (l : List Char) : List Char :=
  ((l.dropWhile isWs).reverse.dropWhile isWs).reverse

/-- A regex `\w` character (ASCII): letter, digit or underscore. -/
def isWordChar (c : Char) : Bool :=
  c.isAlphanum || c = '_'

/-- `re.match('@\\w+{,{0,1}$', line)`: an entry-open marker `@`, one or more
word characters, an opening brace, an optional comma, end of string. -/
def isBareEntry : List Char → Bool
  | '@' :: rest =>
    let w := rest.takeWhile isWordChar
    let r := rest.dropWhile isWordChar
    !w.isEmpty && (r == ['\x7b'] || r == ['\x7b', ','])
  | _ => false

/-- Python `line[:line.find('\x7b')+1]`: the prefix of the line up to and
including the first opening brace (empty when there is none, since
`find` then returns `-1` and the slice is `line[:0]`). -/
def upToBrace (l : List Char) : List Char :=
  if '\x7b' ∈ l then l.takeWhile (· != '\x7b') ++ ['\x7b'] else []

/-- The rewritten line: original prefix up to the brace, then the synthetic
key `Foo` + counter, a comma and a newline. -/
def fixLine (s : String) (i : Nat) : String :=
  String.mk (upToBrace s.data ++ "Foo".data ++ (toString i).data ++ [',', '\n'])

/-- The `while` loop of `fix_keys`, carrying the counter `i`. -/
def fix_keys_go : Nat → List String → List String
  | _, [] => []
  | i, s :: rest =>
    if isBareEntry (stripChars s.data)
    then fixLine s i :: fix_keys_go (i + 1) rest
    else s :: fix_keys_go i rest

/-- `fix_keys` from fixbibliography.py: the counter starts at 1. -/
def fix_keys (l : List String) : List String := fix_keys_go 1 l

theorem fix_keys_go_length (l : List String) : ∀ i : Nat,
    (fix_keys_go i l).length = l.length := by
  induction l with
  | nil => intro i; rfl
  | cons s rest ih =>
    intro i
    cases hb : isBareEntry (stripChars s.data) <;> simp [fix_keys_go, hb, ih]

theorem fix_keys_go_getElem? (l : List String) : ∀ (i j : Nat),
    (fix_keys_go i l)[j]? = (l[j]?).map (fun s =>
      if isBareEntry (stripChars s.data)
      then fixLine s (i + (l.take j).countP (fun s2 => isBareEntry (stripChars s2.data)))
      else s) := by
  induction l with
  | nil => intro i j; simp [fix_keys_go]
  | cons s rest ih =>
    intro i j
    cases j with
    | zero =>
      cases hb : isBareEntry (stripChars s.data) <;> simp [fix_keys_go, hb]
    | succ j =>
      cases hb : isBareEntry (stripChars s.data)
      · simp only [fix_keys_go, hb, Bool.false_eq_true, if_false,
          List.getElem?_cons_succ, List.take_succ_cons, List.countP_cons, hb]
        rw [ih]
        simp
      · simp only [fix_keys_go, hb, if_true, List.getElem?_cons_succ,
          List.take_succ_cons, List.countP_cons, hb]
        rw [ih]
        congr 1
        funext s2
        by_cases hb2 : isBareEntry (stripChars s2.data) = true
        · simp only [hb2, if_true]
          congr 1
          omega
        · simp [hb2]

/-- Claim C8: `fix_keys` rewrites exactly those lines whose stripped content
is a bare entry header `@type\x7b` or `@type\x7b,`, inserting a synthetic key
`Foo` + counter and a comma; all other lines pass through unchanged, and the
counter starts at 1 and increments once per rewritten line across the whole
input, never resetting. -/
theorem fix_keys_spec :
    (∀ (l : List String) (j : Nat),
      (fix_keys l).length = l.length ∧
      (fix_keys l)[j]? = (l[j]?).map (fun s =>
        if isBareEntry (stripChars s.data)
        then fixLine s (1 + (l.take j).countP (fun s2 => isBareEntry (stripChars s2.data)))
        else s)) ∧
    fix_keys ["@article\x7b\n", "  x\n", "@misc\x7b,\n"] =
      ["@article\x7bFoo1,\n", "  x\n", "@misc\x7bFoo2,\n"] := by
  constructor
  · intro l j
    exact ⟨fix_keys_go_length l 1, fix_keys_go_getElem? l 1 j⟩
  · decide

/-! ## convertbibliography.py : records and special-character escaping -/

/-- A bibliographic record: field name to value, `id` and `type` included,
exactly as in bibtexparser records / `entries_dict` entries. -/
abbrev Record := Dict String

/-- A record set: citation key to record (`entries_dict`). -/
abbrev RecordSet := Dict Record

/-- One pass of `re.sub('(?<!\\\\)c', '\\c', s)` for a single character `c`:
insert a backslash before every occurrence of `c` whose preceding character
in the original string is not a backslash.  `prev` is the previous original
character (the negative lookbehind inspects the input, not the output). -/
def escapeGo (c : Char) : Option Char → List Char → List Char
  | _, [] => []
  | prev, x :: rest =>
    if x = c ∧ prev ≠ some '\\'
    then '\\' :: x :: escapeGo c (some x) rest
    else x :: escapeGo c (some x) rest

/-- Escape one reserved character throughout a string. -/
def escapeChar (c : Char) (l : List Char) : List Char := escapeGo c none l

/-- The body of `escape_characters` applied to one field value: the loop
`for c in ['&', '%', '_']` applies the three substitutions in order. -/
def escapeValue (s : String) : String :=
  String.mk (escapeChar '_' (escapeChar '%' (escapeChar '&' s.data)))

/-- `escape_characters` from convertbibliography.py: escape `&`, `%`, `_`
in every field value of the record (the loop `for val in record` runs over
every field, including `id` and `type`). -/
def escape_characters (r : Record) : Record :=
  r.map (fun p => (p.1, escapeValue p.2))

theorem escapeGo_idem (c : Char) (hc : c ≠ '\\') :
    ∀ (l : List Char) (prev : Option Char),
      escapeGo c prev (escapeGo c prev l) = escapeGo c prev l := by
  intro l
  induction l with
  | nil => intro prev; rfl
  | cons x rest ih =>
    intro prev
    by_cases hx : x = c ∧ prev ≠ some '\\'
    · have hbc : ¬ ('\\' = c ∧ prev ≠ some '\\') := fun h => hc h.1.symm
      have hxc : ¬ (x = c ∧ some '\\' ≠ some '\\') := fun h => h.2 rfl
      simp only [escapeGo, if_pos hx, if_neg hbc, if_neg hxc, ih]
    · simp only [escapeGo, if_neg hx, ih]

theorem escapeGo_preserve (c d : Char) (hc : c ≠ '\\') :
    ∀ (l : List Char) (prev : Option Char),
      escapeGo c prev l = l →
      escapeGo c prev (escapeGo d prev l) = escapeGo d prev l := by
  intro l
  induction l with
  | nil => intro prev _; rfl
  | cons x rest ih =>
    intro prev hcl
    have hcx : ¬ (x = c ∧ prev ≠ some '\\') := by
      intro hx
      have := hcl
      simp only [escapeGo, if_pos hx] at this
      have hbx : '\\' = x := by injection this
      exact hc ((hbx.trans hx.1).symm)
    have hrest : escapeGo c (some x) rest = rest := by
      have := hcl
      simp only [escapeGo, if_neg hcx] at this
      injection this
    by_cases hxd : x = d ∧ prev ≠ some '\\'
    · have hbc : ¬ ('\\' = c ∧ prev ≠ some '\\') := fun h => hc h.1.symm
      have hxc2 : ¬ (x = c ∧ some '\\' ≠ some '\\') := fun h => h.2 rfl
      simp only [escapeGo, if_pos hxd, if_neg hbc, if_neg hxc2]
      rw [hxd.1] at hrest ⊢
      rw [ih (some d) hrest]
    · simp only [escapeGo, if_neg hxd, if_neg hcx]
      rw [ih (some x) hrest]

theorem escapeValue_idem (s : String) : escapeValue (escapeValue s) = escapeValue s := by
  unfold escapeValue escapeChar
  have hamp : (('&' : Char) ≠ '\\') := by decide
  have hpct : (('%' : Char) ≠ '\\') := by decide
  have husc : (('_' : Char) ≠ '\\') := by decide
  set a := escapeGo '&' none s.data with ha
  have h1 : escapeGo '&' none a = a := escapeGo_idem '&' hamp s.data none
  have h2 : escapeGo '&' none (escapeGo '%' none a) = escapeGo '%' none a :=
    escapeGo_preserve '&' '%' hamp a none h1
  have h3 : escapeGo '&' none (escapeGo '_' none (escapeGo '%' none a)) =
      escapeGo '_' none (escapeGo '%' none a) :=
    escapeGo_preserve '&' '_' hamp (escapeGo '%' none a) none h2
  have h4 : escapeGo '%' none (escapeGo '%' none a) = escapeGo '%' none a :=
    escapeGo_idem '%' hpct a none
  have h5 : escapeGo '%' none (escapeGo '_' none (escapeGo '%' none a)) =
      escapeGo '_' none (escapeGo '%' none a) :=
    escapeGo_preserve '%' '_' hpct (escapeGo '%' none a) none h4
  have h6 : escapeGo '_' none (escapeGo '_' none (escapeGo '%' none a)) =
      escapeGo '_' none (escapeGo '%' none a) :=
    escapeGo_idem '_' husc (escapeGo '%' none a) none
  simp only [h3, h5, h6]

/-- Claim C4: special-character escaping is idempotent on every record, and
escaping "50% off" twice yields the same single-escaped string as once. -/
theorem escape_characters_idempotent :
    (∀ r : Record, escape_characters (escape_characters r) = escape_characters r) ∧
    escapeValue (escapeValue "50% off") = escapeValue "50% off" ∧
    escapeValue "50% off" = "50\\% off" := by
  refine ⟨fun r => ?_, escapeValue_idem "50% off", by decide⟩
  induction r with
  | nil => rfl
  | cons p rest ih =>
    simp only [escape_characters, List.map_cons, List.map_map] at ih ⊢
    rw [escapeValue_idem]
    exact congrArg _ ih

/-! ## convertbibliography.py : title_name (author/editor title casing) -/

/-- The 26 ASCII lowercase/uppercase pairs. -/
def upTable : List (Char × Char) :=
  [('a', 'A'), ('b', 'B'), ('c', 'C'), ('d', 'D'), ('e', 'E'), ('f', 'F'), ('g', 'G'), ('h', 'H'), ('i', 'I'), ('j', 'J'), ('k', 'K'), ('l', 'L'), ('m', 'M'), ('n', 'N'), ('o', 'O'), ('p', 'P'), ('q', 'Q'), ('r', 'R'), ('s', 'S'), ('t', 'T'), ('u', 'U'), ('v', 'V'), ('w', 'W'), ('x', 'X'), ('y', 'Y'), ('z', 'Z')]

/-- The 26 ASCII uppercase/lowercase pairs. -/
def lowTable : List (Char × Char) :=
  [('A', 'a'), ('B', 'b'), ('C', 'c'), ('D', 'd'), ('E', 'e'), ('F', 'f'), ('G', 'g'), ('H', 'h'), ('I', 'i'), ('J', 'j'), ('K', 'k'), ('L', 'l'), ('M', 'm'), ('N', 'n'), ('O', 'o'), ('P', 'p'), ('Q', 'q'), ('R', 'r'), ('S', 's'), ('T', 't'), ('U', 'u'), ('V', 'v'), ('W', 'w'), ('X', 'x'), ('Y', 'y'), ('Z', 'z')]

/-- ASCII uppercasing of a single character (the effect of Python's
`str.title` on the first cased character of a word, for the ASCII input
this repository handles). -/
def upChar (c : Char) : Char :=
  ((upTable.find? (fun p => p.1 == c)).map (·.2)).getD c

/-- ASCII lowercasing of a single character. -/
def lowChar (c : Char) : Char :=
  ((lowTable.find? (fun p => p.1 == c)).map (·.2)).getD c

/-- Python `str.title()` (ASCII): the first cased character after an uncased
one is uppercased, subsequent cased characters are lowercased; `prev` records
whether the previous character was cased (a letter). -/
def pyTitleGo : Bool → List Char → List Char
  | _, [] => []
  | prev, c :: rest =>
    if c.isAlpha
    then (if prev then lowChar c else upChar c) :: pyTitleGo true rest
    else c :: pyTitleGo false rest

/-- Python `str.title()` on a character list. -/
def pyTitle (l : List Char) : List Char := pyTitleGo false l

/-- The worker of Python `str.split()` (no argument: split on whitespace
runs, dropping empty tokens); `cur` is the current token, reversed. -/
def splitWsGo : List Char → List Char → List (List Char)
  | cur, [] => if cur.isEmpty then [] else [cur.reverse]
  | cur, c :: rest =>
    if isWs c
    then (if cur.isEmpty then splitWsGo [] rest else cur.reverse :: splitWsGo [] rest)
    else splitWsGo (c :: cur) rest

/-- Python `str.split()` with no argument. -/
def splitWs (l : List Char) : List (List Char) := splitWsGo [] l

/-- Python `' '.join(...)` on tokens represented as character lists. -/
def joinSp : List (List Char) → List Char
  | [] => []
  | [t] => t
  | t :: ts => t ++ ' ' :: joinSp ts

/-- `re.match('and', x)` is truthy exactly when the token starts with the
three characters `and` (a case-sensitive prefix match). -/
def isAndTok : List Char → Bool
  | 'a' :: 'n' :: 'd' :: _ => true
  | _ => false

/-- `title_name` from convertbibliography.py:
`' '.join([x.title() if not re.match('and', x) else x for x in name.split()])`. -/
def title_name (name : String) : String :=
  String.mk (joinSp ((splitWs name.data).map
    (fun tok => if isAndTok tok then tok else pyTitle tok)))

theorem isWs_upChar (c : Char) : isWs (upChar c) = isWs c := by
  unfold upChar
  cases hf : upTable.find? (fun p => p.1 == c) with
  | none => simp
  | some p =>
    have hp : p ∈ upTable := List.mem_of_find?_eq_some hf
    have hc : p.1 = c := by
      have := List.find?_some hf
      simpa using this
    have hprop : ∀ q ∈ upTable, isWs q.1 = false ∧ isWs q.2 = false := by decide
    simp only [Option.map_some', Option.getD_some]
    rw [← hc, (hprop p hp).1, (hprop p hp).2]

theorem isWs_lowChar (c : Char) : isWs (lowChar c) = isWs c := by
  unfold lowChar
  cases hf : lowTable.find? (fun p => p.1 == c) with
  | none => simp
  | some p =>
    have hp : p ∈ lowTable := List.mem_of_find?_eq_some hf
    have hc : p.1 = c := by
      have := List.find?_some hf
      simpa using this
    have hprop : ∀ q ∈ lowTable, isWs q.1 = false ∧ isWs q.2 = false := by decide
    simp only [Option.map_some', Option.getD_some]
    rw [← hc, (hprop p hp).1, (hprop p hp).2]

theorem pyTitleGo_length : ∀ (l : List Char) (prev : Bool),
    (pyTitleGo prev l).length = l.length := by
  intro l
  induction l with
  | nil => intro prev; rfl
  | cons c rest ih =>
    intro prev
    by_cases ha : c.isAlpha <;> simp [pyTitleGo, ha, ih]

theorem pyTitleGo_ws_free : ∀ (l : List Char) (prev : Bool),
    (∀ c ∈ l, isWs c = false) → ∀ c2 ∈ pyTitleGo prev l, isWs c2 = false := by
  intro l
  induction l with
  | nil => intro prev _ c2 h2; simp [pyTitleGo] at h2
  | cons c rest ih =>
    intro prev hl c2 h2
    have hc : isWs c = false := hl c (List.mem_cons_self c rest)
    have hrest : ∀ c3 ∈ rest, isWs c3 = false :=
      fun c3 h3 => hl c3 (List.mem_cons_of_mem c h3)
    by_cases ha : c.isAlpha
    · simp only [pyTitleGo, ha, if_true, List.mem_cons] at h2
      rcases h2 with h2 | h2
      · subst h2
        cases prev
        · simp [isWs_upChar, hc]
        · simp [isWs_lowChar, hc]
      · exact ih true hrest c2 h2
    · simp only [pyTitleGo, ha, Bool.false_eq_true, if_false, List.mem_cons] at h2
      rcases h2 with h2 | h2
      · subst h2; exact hc
      · exact ih false hrest c2 h2

theorem splitWsGo_tokens : ∀ (l cur : List Char),
    (∀ c ∈ cur, isWs c = false) →
    ∀ tok ∈ splitWsGo cur l, tok ≠ [] ∧ ∀ c ∈ tok, isWs c = false := by
  intro l
  induction l with
  | nil =>
    intro cur hcur tok htok
    by_cases hc : cur.isEmpty
    · simp [splitWsGo, hc] at htok
    · simp only [splitWsGo, hc, Bool.false_eq_true, if_false, List.mem_singleton] at htok
      subst htok
      refine ⟨fun hh => hc ?_, fun c h => hcur c (List.mem_reverse.mp h)⟩
      have : cur = [] := by
        have := congrArg List.reverse hh
        simpa using this
      simp [this]
  | cons c rest ih =>
    intro cur hcur tok htok
    by_cases hw : isWs c
    · simp only [splitWsGo, hw, if_true] at htok
      by_cases hc : cur.isEmpty
      · rw [if_pos hc] at htok
        exact ih [] (by simp) tok htok
      · rw [if_neg hc] at htok
        rcases List.mem_cons.mp htok with h | h
        · subst h
          refine ⟨fun hh => hc ?_, fun c2 h2 => hcur c2 (List.mem_reverse.mp h2)⟩
          have : cur = [] := by
            have := congrArg List.reverse hh
            simpa using this
          simp [this]
        · exact ih [] (by simp) tok h
    · simp only [splitWsGo, hw, Bool.false_eq_true, if_false] at htok
      refine ih (c :: cur) ?_ tok htok
      intro c2 h2
      rcases List.mem_cons.mp h2 with h2 | h2
      · subst h2
        simpa using hw
      · exact hcur c2 h2

theorem splitWsGo_token_prefix : ∀ (t : List Char),
    (∀ c ∈ t, isWs c = false) →
    ∀ (cur l : List Char), splitWsGo cur (t ++ l) = splitWsGo (t.reverse ++ cur) l := by
  intro t
  induction t with
  | nil => intro _ cur l; simp
  | cons c t2 ih =>
    intro ht cur l
    have hc : isWs c = false := ht c (List.mem_cons_self c t2)
    have ht2 : ∀ c2 ∈ t2, isWs c2 = false :=
      fun c2 h2 => ht c2 (List.mem_cons_of_mem c h2)
    have hstep : splitWsGo cur ((c :: t2) ++ l) = splitWsGo (c :: cur) (t2 ++ l) := by
      rw [List.cons_append]
      show (if isWs c then _ else splitWsGo (c :: cur) (t2 ++ l)) = _
      rw [hc]
      rfl
    rw [hstep, ih ht2 (c :: cur) l]
    simp

theorem splitWs_joinSp : ∀ tokens : List (List Char),
    (∀ tok ∈ tokens, tok ≠ [] ∧ ∀ c ∈ tok, isWs c = false) →
    splitWs (joinSp tokens) = tokens := by
  intro tokens
  induction tokens with
  | nil => intro _; rfl
  | cons t ts ih =>
    intro h
    have ht : t ≠ [] ∧ ∀ c ∈ t, isWs c = false := h t (List.mem_cons_self t ts)
    have hne : ¬ t.isEmpty := by
      cases t
      · exact absurd rfl ht.1
      · simp
    cases ts with
    | nil =>
      show splitWsGo [] (joinSp [t]) = [t]
      have : joinSp [t] = t ++ [] := by simp [joinSp]
      rw [this, splitWsGo_token_prefix t ht.2 [] []]
      simp only [splitWsGo, List.append_nil]
      have : ¬ t.reverse.isEmpty := by
        cases hrev : t.reverse
        · exact absurd (by simpa using congrArg List.reverse hrev) ht.1
        · simp
      rw [if_neg this]
      simp
    | cons t2 ts2 =>
      have hts : ∀ tok ∈ t2 :: ts2, tok ≠ [] ∧ ∀ c ∈ tok, isWs c = false :=
        fun tok htok => h tok (List.mem_cons_of_mem t htok)
      show splitWsGo [] (joinSp (t :: t2 :: ts2)) = t :: t2 :: ts2
      have hj : joinSp (t :: t2 :: ts2) = t ++ ' ' :: joinSp (t2 :: ts2) := rfl
      rw [hj, splitWsGo_token_prefix t ht.2 [] (' ' :: joinSp (t2 :: ts2))]
      have hw : isWs ' ' = true := rfl
      simp only [splitWsGo, hw, if_true, List.append_nil]
      have hrne : ¬ t.reverse.isEmpty := by
        cases hrev : t.reverse
        · exact absurd (by simpa using congrArg List.reverse hrev) ht.1
        · simp
      rw [if_neg hrne]
      rw [List.reverse_reverse]
      exact congrArg _ (ih hts)

/-- Claim C2 (amended): `title_name` splits on whitespace and title-cases
every token EXCEPT those that begin with the lowercase characters `and`
(`re.match('and', x)` is a case-sensitive prefix match): such tokens are left
unaltered, every other token is Python-title-cased.  The spec's positive
example holds. -/
theorem title_name_tokenwise :
    (∀ name : String,
      splitWs (title_name name).data =
        (splitWs name.data).map (fun tok => if isAndTok tok then tok else pyTitle tok)) ∧
    title_name "doe, jane and smith, john" = "Doe, Jane and Smith, John" := by
  constructor
  · intro name
    unfold title_name
    show splitWs (joinSp _) = _
    apply splitWs_joinSp
    intro tok htok
    rcases List.mem_map.mp htok with ⟨tok0, htok0, hmap⟩
    have h0 : tok0 ≠ [] ∧ ∀ c ∈ tok0, isWs c = false :=
      splitWsGo_tokens name.data [] (by simp) tok0 htok0
    subst hmap
    by_cases ha : isAndTok tok0
    · simpa [ha] using h0
    · simp only [ha, Bool.false_eq_true, if_false]
      constructor
      · intro hh
        have := pyTitleGo_length tok0 false
        rw [show pyTitle tok0 = pyTitleGo false tok0 from rfl] at hh
        rw [hh] at this
        exact h0.1 (List.eq_nil_of_length_eq_zero this.symm)
      · exact pyTitleGo_ws_free tok0 false h0.2
  · decide

/-- Claim C2 counterexample: the `and` exemption is NOT case-insensitive and
is not limited to the separator token: `AND` is title-cased to `And`, while
a name token starting with lowercase `and` (e.g. `anderson`) escapes
title-casing. -/
theorem title_name_case_counterexample :
    title_name "doe AND smith" = "Doe And Smith" ∧
    title_name "anderson" = "anderson" := by
  decide

/-! ## crossrefs.py : list formatting, validation and expansion -/

/-- `make_list` from crossrefs.py.  One element: that element; two: joined by
the delimiter; three or more: comma-separated with the delimiter before the
last.  (On the empty list the source would raise an IndexError on
`strings[-1]`; callers always pass a nonempty list.) -/
def make_list (strings : List String) (delimiter : String) : String :=
  match strings with
  | [] => ""
  | [s] => s
  | [s1, s2] => s1 ++ " " ++ delimiter ++ " " ++ s2
  | s1 :: s2 :: s3 :: rest =>
    String.intercalate ", " (s1 :: s2 :: s3 :: rest).dropLast
      ++ ", " ++ delimiter ++ " " ++ ((s1 :: s2 :: s3 :: rest).getLast?).getD ""

/-- `entry_types_to_reference_types` from crossrefs.py. -/
def entry_types_to_reference_types : Dict (List String) :=
  [("inbook", ["book", "mvbook"]),
   ("incollection", ["collection", "mvcollection"]),
   ("inproceedings", ["proceedings"])]

/-- `crossref_types`: the sorted keys of `entry_types_to_reference_types`
(the keys are already in sorted order). -/
def crossref_types : List String := ["inbook", "incollection", "inproceedings"]

/-- The body of the validation loop of crossrefs.py for one entry: the
diagnostics printed for a record `r` against the record set `entries`.
`id` and `type` are always present on parsed records (bibtexparser
invariant); the source reads them unguarded. -/
def validateEntry (entries : RecordSet) (r : Record) : List String :=
  match Dict.get r "crossref" with
  | none => []
  | some entry_crossref =>
    let entry_id := (Dict.get r "id").getD ""
    let entry_type := (Dict.get r "type").getD ""
    let msgs1 :=
      match Dict.get entries entry_crossref with
      | none => [entry_crossref ++ " referenced by " ++ entry_id ++ " was not found."]
      | some target =>
        match Dict.get entry_types_to_reference_types entry_type with
        | none => []
        | some allowed =>
          let entry_crossref_type := (Dict.get target "type").getD ""
          if entry_crossref_type ∈ allowed then []
          else ["The type of " ++ entry_crossref ++ " referenced by " ++ entry_id
            ++ " is " ++ entry_crossref_type ++ ". It should probably be "
            ++ make_list allowed "or" ++ "."]
    let msgs2 :=
      if entry_type ∈ crossref_types then []
      else ["The type of " ++ entry_id ++ " is " ++ entry_type
        ++ ". That\x27s not one of the types expected to have a crossref, which are: "
        ++ make_list crossref_types "or" ++ "."]
    msgs1 ++ msgs2

/-- The validation loop (`for entry in entries` with the three checks),
threading the record set through unchanged and accumulating diagnostics. -/
def validateLoop : List String → RecordSet → List String → RecordSet × List String
  | [], rs, msgs => (rs, msgs)
  | k :: rest, rs, msgs =>
    match Dict.get rs k with
    | none => validateLoop rest rs msgs
    | some r => validateLoop rest rs (msgs ++ validateEntry rs r)

/-- Run the validation phase on a record set. -/
def validate (rs : RecordSet) : RecordSet × List String :=
  validateLoop (Dict.keys rs) rs []

theorem validateLoop_fst : ∀ (ks : List String) (rs : RecordSet) (msgs : List String),
    (validateLoop ks rs msgs).1 = rs := by
  intro ks
  induction ks with
  | nil => intro rs msgs; rfl
  | cons k rest ih =>
    intro rs msgs
    cases hg : Dict.get rs k <;> simp [validateLoop, hg, ih]

theorem validateLoop_msgs_mono : ∀ (ks : List String) (rs : RecordSet) (msgs : List String),
    ∀ m ∈ msgs, m ∈ (validateLoop ks rs msgs).2 := by
  intro ks
  induction ks with
  | nil => intro rs msgs m hm; exact hm
  | cons k rest ih =>
    intro rs msgs m hm
    cases hg : Dict.get rs k with
    | none => simpa [validateLoop, hg] using ih rs msgs m hm
    | some r =>
      simp only [validateLoop, hg]
      exact ih rs (msgs ++ validateEntry rs r) m (List.mem_append_left _ hm)

theorem validateLoop_msgs_of_entry : ∀ (ks : List String) (rs : RecordSet)
    (msgs : List String) (k : String) (r : Record),
    k ∈ ks → Dict.get rs k = some r →
    ∀ m ∈ validateEntry rs r, m ∈ (validateLoop ks rs msgs).2 := by
  intro ks
  induction ks with
  | nil => intro rs msgs k r hk; simp at hk
  | cons k2 rest ih =>
    intro rs msgs k r hk hget m hm
    rcases List.mem_cons.mp hk with hk' | hk'
    · subst hk'
      simp only [validateLoop, hget]
      exact validateLoop_msgs_mono rest rs _ m (List.mem_append_right _ hm)
    · cases hg : Dict.get rs k2 with
      | none => simpa [validateLoop, hg] using ih rs msgs k r hk' hget m hm
      | some r2 =>
        simp only [validateLoop, hg]
        exact ih rs _ k r hk' hget m hm

/-- Claim C9: crossref validation never mutates the record set: the record
set (every record, every field, every value) after the validation loop is
the input record set; findings come out only as diagnostics. -/
theorem validate_no_mutation :
    ∀ rs : RecordSet, (validate rs).1 = rs ∧
      ∀ k, Dict.get (validate rs).1 k = Dict.get rs k := by
  intro rs
  refine ⟨validateLoop_fst (Dict.keys rs) rs [], fun k => ?_⟩
  show Dict.get (validateLoop (Dict.keys rs) rs []).1 k = Dict.get rs k
  rw [validateLoop_fst (Dict.keys rs) rs []]

/-- Claim C6: for a referencing record of type inbook/incollection/
inproceedings whose crossref target exists, the validator reports a mismatch
exactly when the target type is outside the allowed set for the referencing
type, and the report lists the allowed set with `or` before the last element
(commas only from three elements on). -/
theorem crossref_type_check (rs : RecordSet) (r t : Record) (c rid rty tty : String)
    (hcr : Dict.get r "crossref" = some c)
    (ht : Dict.get rs c = some t)
    (hid : Dict.get r "id" = some rid)
    (hty : Dict.get r "type" = some rty)
    (hmem : rty ∈ crossref_types)
    (htty : Dict.get t "type" = some tty) :
    ∃ allowed, Dict.get entry_types_to_reference_types rty = some allowed ∧
      (tty ∉ allowed ↔ validateEntry rs r =
        ["The type of " ++ c ++ " referenced by " ++ rid ++ " is " ++ tty
          ++ ". It should probably be " ++ make_list allowed "or" ++ "."]) ∧
      (tty ∈ allowed → validateEntry rs r = []) ∧
      make_list ["book", "mvbook"] "or" = "book or mvbook" ∧
      make_list ["collection", "mvcollection"] "or" = "collection or mvcollection" ∧
      make_list ["proceedings"] "or" = "proceedings" ∧
      make_list crossref_types "or" = "inbook, incollection, or inproceedings" := by
  have hmem2 : rty = "inbook" ∨ rty = "incollection" ∨ rty = "inproceedings" := by
    simpa [crossref_types] using hmem
  have main : ∀ allowed : List String,
      Dict.get entry_types_to_reference_types rty = some allowed →
      validateEntry rs r = (if tty ∈ allowed then [] else
        ["The type of " ++ c ++ " referenced by " ++ rid ++ " is " ++ tty
          ++ ". It should probably be " ++ make_list allowed "or" ++ "."]) := by
    intro allowed hallowed
    unfold validateEntry
    rw [hcr]
    simp only [hid, hty, ht, htty, Option.getD_some, hallowed]
    rw [if_pos hmem]
    by_cases hin : tty ∈ allowed
    · rw [if_pos hin]
      rfl
    · rw [if_neg hin]
      simp
  have hiff : ∀ allowed : List String,
      Dict.get entry_types_to_reference_types rty = some allowed →
      (tty ∉ allowed ↔ validateEntry rs r =
        ["The type of " ++ c ++ " referenced by " ++ rid ++ " is " ++ tty
          ++ ". It should probably be " ++ make_list allowed "or" ++ "."]) ∧
      (tty ∈ allowed → validateEntry rs r = []) := by
    intro allowed hallowed
    constructor
    · by_cases hin : tty ∈ allowed
      · rw [main allowed hallowed, if_pos hin]
        simp [hin]
      · rw [main allowed hallowed, if_neg hin]
        simp [hin]
    · intro hin
      rw [main allowed hallowed, if_pos hin]
  rcases hmem2 with h | h | h <;> subst h
  · exact ⟨["book", "mvbook"], rfl, (hiff _ rfl).1, (hiff _ rfl).2,
      by decide, by decide, by decide, by decide⟩
  · exact ⟨["collection", "mvcollection"], rfl, (hiff _ rfl).1, (hiff _ rfl).2,
      by decide, by decide, by decide, by decide⟩
  · exact ⟨["proceedings"], rfl, (hiff _ rfl).1, (hiff _ rfl).2,
      by decide, by decide, by decide, by decide⟩

/-- Witness for C6: an `inbook` record `e1` referencing `b1`, whose type is
`article`, is reported with allowed types `book or mvbook`. -/
theorem crossref_type_check_witness :
    ∃ allowed, Dict.get entry_types_to_reference_types "inbook" = some allowed ∧
      ("article" ∉ allowed ↔
        validateEntry [("b1", [("id", "b1"), ("type", "article")])]
          [("id", "e1"), ("type", "inbook"), ("crossref", "b1")] =
        ["The type of " ++ "b1" ++ " referenced by " ++ "e1" ++ " is " ++ "article"
          ++ ". It should probably be " ++ make_list allowed "or" ++ "."]) ∧
      ("article" ∈ allowed →
        validateEntry [("b1", [("id", "b1"), ("type", "article")])]
          [("id", "e1"), ("type", "inbook"), ("crossref", "b1")] = []) ∧
      make_list ["book", "mvbook"] "or" = "book or mvbook" ∧
      make_list ["collection", "mvcollection"] "or" = "collection or mvcollection" ∧
      make_list ["proceedings"] "or" = "proceedings" ∧
      make_list crossref_types "or" = "inbook, incollection, or inproceedings" :=
  crossref_type_check [("b1", [("id", "b1"), ("type", "article")])]
    [("id", "e1"), ("type", "inbook"), ("crossref", "b1")]
    [("id", "b1"), ("type", "article")]
    "b1" "e1" "inbook" "article"
    (by decide) (by decide) (by decide) (by decide) (by decide) (by decide)

/-- The `leave` list of the `--expand` block of crossrefs.py: fields never
copied from a crossref target. -/
def leave : List String :=
  ["id", "type", "read", "bdsk-file-1", "doi", "date-added", "date-modified"]

/-- One iteration of `for field in entries[crossref]`: copy one field of the
target into the referencing entry (`title` lands as `booktitle`, `subtitle`
as `booksubtitle`, `leave` fields are skipped, everything else overwrites). -/
def copyField (acc : Record) (field val : String) : Record :=
  if field = "title" then Dict.set acc "booktitle" val
  else if field = "subtitle" then Dict.set acc "booksubtitle" val
  else if field ∈ leave then acc
  else Dict.set acc field val

/-- The destination field that a source field of the target writes to:
`title` goes to `booktitle`, `subtitle` to `booksubtitle`, `leave` fields
nowhere, anything else to itself. -/
def mapTarget (g : String) : Option String :=
  if g = "title" then some "booktitle"
  else if g = "subtitle" then some "booksubtitle"
  else if g ∈ leave then none
  else some g

/-- The value of the last write into destination field `f` when the fields
of a target record are copied in order. -/
def lastWrite (f : String) : List (String × String) → Option String
  | [] => none
  | p :: rest =>
    match lastWrite f rest with
    | some v => some v
    | none => if mapTarget p.1 = some f then some p.2 else none

/-- Expanding one entry `r` against its crossref target `t`: copy all fields
of `t` (in order), then `del entries[entry]['crossref']`. -/
def expandEntry (r t : Record) : Record :=
  Dict.eraseKey (t.foldl (fun acc p => copyField acc p.1 p.2) r) "crossref"

/-- The `for entry in entries` loop of the `--expand` block.  A `crossref`
naming a missing key is an unguarded `entries[crossref]` lookup: a KeyError,
modelled as `Except.error`.  The loop also collects the consumed target keys
(the `crossrefs` set). -/
def expandLoop : List String → RecordSet → List String → Except Unit (RecordSet × List String)
  | [], rs, cr => .ok (rs, cr)
  | k :: rest, rs, cr =>
    match Dict.get rs k with
    | none => expandLoop rest rs cr
    | some r =>
      match Dict.get r "crossref" with
      | none => expandLoop rest rs cr
      | some t =>
        match Dict.get rs t with
        | none => .error ()
        | some tr => expandLoop rest (Dict.set rs k (expandEntry r tr)) (cr.insert t)

/-- The whole expansion phase: run the loop over the keys, then delete every
consumed target (`for key in crossrefs: del entries[key]`). -/
def expand (rs : RecordSet) : Except Unit RecordSet :=
  match expandLoop (Dict.keys rs) rs [] with
  | .error e => .error e
  | .ok (rs2, cr) => .ok (rs2.filter (fun p => !cr.contains p.1))

theorem copyField_get (acc : Record) (g v f : String) :
    Dict.get (copyField acc g v) f =
      if mapTarget g = some f then some v else Dict.get acc f := by
  unfold copyField mapTarget
  by_cases hgt : g = "title"
  · rw [if_pos hgt, if_pos hgt]
    by_cases hf : f = "booktitle"
    · subst hf
      rw [Dict.get_set_self, if_pos rfl]
    · rw [Dict.get_set_ne acc "booktitle" f v hf, if_neg (fun h => hf (by injection h; simp_all))]
  · rw [if_neg hgt, if_neg hgt]
    by_cases hgs : g = "subtitle"
    · rw [if_pos hgs, if_pos hgs]
      by_cases hf : f = "booksubtitle"
      · subst hf
        rw [Dict.get_set_self, if_pos rfl]
      · rw [Dict.get_set_ne acc "booksubtitle" f v hf, if_neg (fun h => hf (by injection h; simp_all))]
    · rw [if_neg hgs, if_neg hgs]
      by_cases hgl : g ∈ leave
      · rw [if_pos hgl, if_pos hgl]
        simp
      · rw [if_neg hgl, if_neg hgl]
        by_cases hf : f = g
        · subst hf
          rw [Dict.get_set_self, if_pos rfl]
        · rw [Dict.get_set_ne acc g f v hf, if_neg (fun h => hf (by injection h; simp_all))]

theorem foldl_copyField_get : ∀ (t : List (String × String)) (acc : Record) (f : String),
    Dict.get (t.foldl (fun a p => copyField a p.1 p.2) acc) f =
      match lastWrite f t with
      | some v => some v
      | none => Dict.get acc f := by
  intro t
  induction t with
  | nil => intro acc f; rfl
  | cons p rest ih =>
    intro acc f
    show Dict.get (rest.foldl (fun a p => copyField a p.1 p.2) (copyField acc p.1 p.2)) f = _
    rw [ih]
    show _ = (match (match lastWrite f rest with
      | some v => some v
      | none => if mapTarget p.1 = some f then some p.2 else none) with
      | some v => some v
      | none => Dict.get acc f)
    cases hlw : lastWrite f rest with
    | some v => rfl
    | none =>
      rw [copyField_get]
      by_cases hm : mapTarget p.1 = some f
      · rw [if_pos hm, if_pos hm]
      · rw [if_neg hm, if_neg hm]

theorem expandEntry_get (r t : Record) (f : String) :
    Dict.get (expandEntry r t) f =
      if f = "crossref" then none
      else match lastWrite f t with
        | some v => some v
        | none => Dict.get r f := by
  unfold expandEntry
  by_cases hf : f = "crossref"
  · subst hf
    rw [Dict.get_eraseKey_self, if_pos rfl]
  · rw [Dict.get_eraseKey_ne _ _ _ hf, if_neg hf, foldl_copyField_get]

theorem mapTarget_inv (g f : String) (h : mapTarget g = some f) :
    g = f ∨ (g = "title" ∧ f = "booktitle") ∨ (g = "subtitle" ∧ f = "booksubtitle") := by
  unfold mapTarget at h
  by_cases hgt : g = "title"
  · rw [if_pos hgt] at h
    right; left
    exact ⟨hgt, by injection h; simp_all⟩
  · rw [if_neg hgt] at h
    by_cases hgs : g = "subtitle"
    · rw [if_pos hgs] at h
      right; right
      exact ⟨hgs, by injection h; simp_all⟩
    · rw [if_neg hgs] at h
      by_cases hgl : g ∈ leave
      · rw [if_pos hgl] at h
        exact absurd h (by simp)
      · rw [if_neg hgl] at h
        left
        exact Option.some.inj h

theorem mapTarget_self (f : String) (h1 : f ∉ leave) (h2 : f ≠ "title")
    (h3 : f ≠ "subtitle") : mapTarget f = some f := by
  unfold mapTarget
  rw [if_neg h2, if_neg h3, if_neg h1]

theorem lastWrite_eq_none (f : String) : ∀ t : List (String × String),
    (∀ p ∈ t, mapTarget p.1 ≠ some f) → lastWrite f t = none := by
  intro t
  induction t with
  | nil => intro _; rfl
  | cons p rest ih =>
    intro h
    show (match lastWrite f rest with
      | some v => some v
      | none => if mapTarget p.1 = some f then some p.2 else none) = none
    rw [ih (fun q hq => h q (List.mem_cons_of_mem p hq))]
    rw [if_neg (h p (List.mem_cons_self p rest))]

theorem lastWrite_single_source (f g0 : String) : ∀ t : List (String × String),
    (Dict.keys t).Nodup →
    (∀ p ∈ t, (mapTarget p.1 = some f ↔ p.1 = g0)) →
    lastWrite f t = Dict.get t g0 := by
  intro t
  induction t with
  | nil => intro _ _; rfl
  | cons p rest ih =>
    intro hnd h
    simp only [Dict.keys_cons, List.nodup_cons] at hnd
    have hp := h p (List.mem_cons_self p rest)
    show (match lastWrite f rest with
      | some v => some v
      | none => if mapTarget p.1 = some f then some p.2 else none) = _
    by_cases hg : p.1 = g0
    · have hnone : lastWrite f rest = none := by
        apply lastWrite_eq_none
        intro q hq hmq
        have : q.1 = g0 := (h q (List.mem_cons_of_mem p hq)).mp hmq
        exact hnd.1 (hg ▸ this ▸ List.mem_map_of_mem (·.1) hq)
      rw [hnone, if_pos (hp.mpr hg)]
      rw [show Dict.get (p :: rest) g0 = if p.1 = g0 then some p.2 else Dict.get rest g0 from rfl]
      rw [if_pos hg]
    · have hrest : lastWrite f rest = Dict.get rest g0 :=
        ih hnd.2 (fun q hq => h q (List.mem_cons_of_mem p hq))
      rw [hrest]
      rw [show Dict.get (p :: rest) g0 = if p.1 = g0 then some p.2 else Dict.get rest g0 from rfl]
      rw [if_neg hg]
      cases hget : Dict.get rest g0 with
      | some v => rfl
      | none => rw [if_neg (fun hm => hg (hp.mp hm))]

theorem expandLoop_ok (rs0 : RecordSet)
    (hres : ∀ kv ∈ rs0, ∀ fv ∈ kv.2, fv.1 = "crossref" → fv.2 ∈ Dict.keys rs0) :
    ∀ ks : List String, ks.Nodup →
    ∀ (rs : RecordSet) (cr : List String),
    (∀ k ∈ ks, k ∈ Dict.keys rs0) →
    Dict.keys rs = Dict.keys rs0 →
    (∀ k ∈ ks, Dict.get rs k = Dict.get rs0 k) →
    (∀ k r, Dict.get rs0 k = some r → Dict.get r "crossref" = none →
      Dict.get rs k = some r) →
    ∃ rs2 cr2, expandLoop ks rs cr = .ok (rs2, cr2) ∧
      Dict.keys rs2 = Dict.keys rs0 ∧
      (∀ k, k ∉ ks → Dict.get rs2 k = Dict.get rs k) ∧
      (∀ c ∈ cr2, c ∈ cr ∨ ∃ kv ∈ rs0, Dict.get kv.2 "crossref" = some c) ∧
      (∀ c ∈ cr, c ∈ cr2) ∧
      (∀ k r, Dict.get rs0 k = some r → Dict.get r "crossref" = none →
        Dict.get rs2 k = some r) ∧
      (∀ k ∈ ks, ∀ r t tr, Dict.get rs0 k = some r →
        Dict.get r "crossref" = some t → Dict.get rs0 t = some tr →
        Dict.get tr "crossref" = none →
        Dict.get rs2 k = some (expandEntry r tr) ∧ t ∈ cr2) := by
  intro ks
  induction ks with
  | nil =>
    intro _ rs cr _ hkeys _ hpres
    exact ⟨rs, cr, rfl, hkeys, fun k _ => rfl, fun c hc => Or.inl hc, fun c hc => hc,
      hpres, fun k hk => absurd hk (List.not_mem_nil k)⟩
  | cons k0 rest ih =>
    intro hnd rs cr hksub hkeys hsame hpres
    obtain ⟨hk0nd, hrestnd⟩ := List.nodup_cons.mp hnd
    have hk0mem : k0 ∈ Dict.keys rs0 := hksub k0 (List.mem_cons_self _ _)
    have hk0rs : k0 ∈ Dict.keys rs := by rw [hkeys]; exact hk0mem
    have hk0same : Dict.get rs k0 = Dict.get rs0 k0 := hsame k0 (List.mem_cons_self _ _)
    obtain ⟨r0, hr0⟩ := Option.isSome_iff_exists.mp (Dict.isSome_get_of_mem_keys rs k0 hk0rs)
    have hr00 : Dict.get rs0 k0 = some r0 := by rw [← hk0same]; exact hr0
    cases hcrr : Dict.get r0 "crossref" with
    | none =>
      have hstep : expandLoop (k0 :: rest) rs cr = expandLoop rest rs cr := by
        simp only [expandLoop, hr0, hcrr]
      obtain ⟨rs2, cr2, heq, hkeys2, hframe, horig, hsub, hpres2, hmain⟩ :=
        ih hrestnd rs cr (fun k hk => hksub k (List.mem_cons_of_mem _ hk)) hkeys
          (fun k hk => hsame k (List.mem_cons_of_mem _ hk)) hpres
      refine ⟨rs2, cr2, hstep.trans heq, hkeys2, ?_, horig, hsub, hpres2, ?_⟩
      · intro k hk
        exact hframe k (fun hh => hk (List.mem_cons_of_mem _ hh))
      · intro k hk r t tr h1 h2 h3 h4
        rcases List.mem_cons.mp hk with hk2 | hk2
        · subst hk2
          rw [hr00] at h1
          injection h1 with h1
          rw [← h1, hcrr] at h2
          exact Option.noConfusion h2
        · exact hmain k hk2 r t tr h1 h2 h3 h4
    | some t =>
      have hkv : (k0, r0) ∈ rs0 := Dict.mem_of_get_eq_some rs0 k0 r0 hr00
      have hfv : ("crossref", t) ∈ r0 := Dict.mem_of_get_eq_some r0 _ t hcrr
      have htmem : t ∈ Dict.keys rs0 := hres (k0, r0) hkv ("crossref", t) hfv rfl
      have htrs : t ∈ Dict.keys rs := by rw [hkeys]; exact htmem
      obtain ⟨tr0, htr0⟩ := Option.isSome_iff_exists.mp (Dict.isSome_get_of_mem_keys rs t htrs)
      have hstep : expandLoop (k0 :: rest) rs cr =
          expandLoop rest (Dict.set rs k0 (expandEntry r0 tr0)) (cr.insert t) := by
        simp only [expandLoop, hr0, hcrr, htr0]
      have hkeys1 : Dict.keys (Dict.set rs k0 (expandEntry r0 tr0)) = Dict.keys rs0 := by
        rw [Dict.keys_set_of_mem rs k0 _ hk0rs, hkeys]
      have hsame1 : ∀ k ∈ rest, Dict.get (Dict.set rs k0 (expandEntry r0 tr0)) k
          = Dict.get rs0 k := by
        intro k hk
        have hne : k ≠ k0 := fun hh => hk0nd (hh ▸ hk)
        rw [Dict.get_set_ne rs k0 k _ hne]
        exact hsame k (List.mem_cons_of_mem _ hk)
      have hpres1 : ∀ k r, Dict.get rs0 k = some r → Dict.get r "crossref" = none →
          Dict.get (Dict.set rs k0 (expandEntry r0 tr0)) k = some r := by
        intro k r h1 h2
        by_cases hkk : k = k0
        · subst hkk
          rw [hr00] at h1
          injection h1 with h1
          rw [← h1, hcrr] at h2
          exact Option.noConfusion h2
        · rw [Dict.get_set_ne rs k0 k _ hkk]
          exact hpres k r h1 h2
      obtain ⟨rs2, cr2, heq, hkeys2, hframe, horig, hsub, hpres2, hmain⟩ :=
        ih hrestnd (Dict.set rs k0 (expandEntry r0 tr0)) (cr.insert t)
          (fun k hk => hksub k (List.mem_cons_of_mem _ hk)) hkeys1 hsame1 hpres1
      refine ⟨rs2, cr2, hstep.trans heq, hkeys2, ?_, ?_, ?_, hpres2, ?_⟩
      · intro k hk
        have hkr : k ∉ rest := fun hh => hk (List.mem_cons_of_mem _ hh)
        have hne : k ≠ k0 := fun hh => hk (hh ▸ List.mem_cons_self _ _)
        rw [hframe k hkr, Dict.get_set_ne rs k0 k _ hne]
      · intro c hc
        rcases horig c hc with hc2 | hc2
        · rcases List.mem_insert_iff.mp hc2 with hc3 | hc3
          · subst hc3
            exact Or.inr ⟨(k0, r0), hkv, hcrr⟩
          · exact Or.inl hc3
        · exact Or.inr hc2
      · intro c hc
        exact hsub c (List.mem_insert_of_mem hc)
      · intro k hk r t2 tr h1 h2 h3 h4
        rcases List.mem_cons.mp hk with hk2 | hk2
        · subst hk2
          rw [hr00] at h1
          injection h1 with h1
          subst h1
          rw [hcrr] at h2
          injection h2 with h2
          subst h2
          have htr_rs : Dict.get rs t = some tr := hpres t tr h3 h4
          have htr_eq : tr0 = tr := by
            rw [htr0] at htr_rs
            injection htr_rs
          constructor
          · rw [hframe k hk0nd, Dict.get_set_self, htr_eq]
          · exact hsub t (List.mem_insert_self _ _)
        · exact hmain k hk2 r t2 tr h1 h2 h3 h4

theorem expandLoop_err (rs0 : RecordSet) :
    ∀ ks : List String, ks.Nodup →
    ∀ (rs : RecordSet) (cr : List String),
    (∀ k ∈ ks, k ∈ Dict.keys rs0) →
    Dict.keys rs = Dict.keys rs0 →
    (∀ k ∈ ks, Dict.get rs k = Dict.get rs0 k) →
    (∃ k ∈ ks, ∃ r c, Dict.get rs0 k = some r ∧ Dict.get r "crossref" = some c ∧
      c ∉ Dict.keys rs0) →
    expandLoop ks rs cr = .error () := by
  intro ks
  induction ks with
  | nil =>
    intro _ rs cr _ _ _ hwit
    obtain ⟨k, hk, _⟩ := hwit
    exact absurd hk (List.not_mem_nil k)
  | cons k0 rest ih =>
    intro hnd rs cr hksub hkeys hsame hwit
    obtain ⟨hk0nd, hrestnd⟩ := List.nodup_cons.mp hnd
    have hk0rs : k0 ∈ Dict.keys rs := by
      rw [hkeys]; exact hksub k0 (List.mem_cons_self _ _)
    have hk0same : Dict.get rs k0 = Dict.get rs0 k0 := hsame k0 (List.mem_cons_self _ _)
    obtain ⟨r0, hr0⟩ := Option.isSome_iff_exists.mp (Dict.isSome_get_of_mem_keys rs k0 hk0rs)
    have hr00 : Dict.get rs0 k0 = some r0 := by rw [← hk0same]; exact hr0
    obtain ⟨kw, hkw, rw2, cw, h1, h2, h3⟩ := hwit
    cases hcrr : Dict.get r0 "crossref" with
    | none =>
      have hstep : expandLoop (k0 :: rest) rs cr = expandLoop rest rs cr := by
        simp only [expandLoop, hr0, hcrr]
      have hkwrest : kw ∈ rest := by
        rcases List.mem_cons.mp hkw with hk2 | hk2
        · subst hk2
          rw [hr00] at h1
          injection h1 with h1
          rw [← h1, hcrr] at h2
          exact absurd h2 (Option.noConfusion)
        · exact hk2
      rw [hstep]
      exact ih hrestnd rs cr (fun k hk => hksub k (List.mem_cons_of_mem _ hk)) hkeys
        (fun k hk => hsame k (List.mem_cons_of_mem _ hk))
        ⟨kw, hkwrest, rw2, cw, h1, h2, h3⟩
    | some t =>
      by_cases htin : t ∈ Dict.keys rs0
      · have htrs : t ∈ Dict.keys rs := by rw [hkeys]; exact htin
        obtain ⟨tr0, htr0⟩ :=
          Option.isSome_iff_exists.mp (Dict.isSome_get_of_mem_keys rs t htrs)
        have hstep : expandLoop (k0 :: rest) rs cr =
            expandLoop rest (Dict.set rs k0 (expandEntry r0 tr0)) (cr.insert t) := by
          simp only [expandLoop, hr0, hcrr, htr0]
        have hkwrest : kw ∈ rest := by
          rcases List.mem_cons.mp hkw with hk2 | hk2
          · subst hk2
            rw [hr00] at h1
            injection h1 with h1
            rw [← h1, hcrr] at h2
            injection h2 with h2
            exact absurd (h2 ▸ htin) h3
          · exact hk2
        rw [hstep]
        refine ih hrestnd (Dict.set rs k0 (expandEntry r0 tr0)) (cr.insert t)
          (fun k hk => hksub k (List.mem_cons_of_mem _ hk)) ?_ ?_
          ⟨kw, hkwrest, rw2, cw, h1, h2, h3⟩
        · rw [Dict.keys_set_of_mem rs k0 _ hk0rs, hkeys]
        · intro k hk
          have hne : k ≠ k0 := fun hh => hk0nd (hh ▸ hk)
          rw [Dict.get_set_ne rs k0 k _ hne]
          exact hsame k (List.mem_cons_of_mem _ hk)
      · have htnone : Dict.get rs t = none := by
          apply Dict.get_eq_none_of_not_mem
          rw [hkeys]
          exact htin
        simp only [expandLoop, hr0, hcrr, htnone]

theorem contains_eq_false_of_not_mem {l : List String} {a : String} (h : a ∉ l) :
    l.contains a = false := by
  cases hc : l.contains a
  · rfl
  · exact absurd (List.mem_of_elem_eq_true hc) h

theorem Dict.key_ne_of_get_eq_none {α : Type} (d : Dict α) (k : String)
    (h : Dict.get d k = none) : ∀ p ∈ d, p.1 ≠ k := by
  intro p hp hpk
  have hmem : k ∈ Dict.keys d := hpk ▸ List.mem_map_of_mem (·.1) hp
  have := Dict.isSome_get_of_mem_keys d k hmem
  rw [h] at this
  exact Bool.noConfusion this

/-- Claim C1: expanding a record `r` whose `crossref` names an existing
target `tr` copies every field of the target into `r` except the leave-alone
set, with `title` landing as `booktitle` and `subtitle` as `booksubtitle`,
the target's value winning over `r`'s; afterwards `crossref` is gone from
`r` and the consumed target is deleted from the record set.  (Hypotheses:
keys are unique, every crossref in the set resolves — otherwise the expander
raises, see the companion claim — the target is itself crossref-free, and no
record cross-references `r` itself, so `r` is not consumed.) -/
theorem crossref_expansion (rs : RecordSet) (kR t : String) (r tr : Record)
    (hnd : (Dict.keys rs).Nodup)
    (hres : ∀ kv ∈ rs, ∀ fv ∈ kv.2, fv.1 = "crossref" → fv.2 ∈ Dict.keys rs)
    (hR : Dict.get rs kR = some r)
    (hcr : Dict.get r "crossref" = some t)
    (hT : Dict.get rs t = some tr)
    (htr : Dict.get tr "crossref" = none)
    (htrnd : (Dict.keys tr).Nodup)
    (hnoref : ∀ kv ∈ rs, ∀ fv ∈ kv.2, fv.1 = "crossref" → fv.2 ≠ kR) :
    ∃ rs2, expand rs = .ok rs2 ∧
      Dict.get rs2 kR = some (expandEntry r tr) ∧
      Dict.get rs2 t = none ∧
      Dict.get (expandEntry r tr) "crossref" = none ∧
      (∀ f v, f ∉ leave → f ≠ "title" → f ≠ "subtitle" → f ≠ "booktitle" →
        f ≠ "booksubtitle" → f ≠ "crossref" → Dict.get tr f = some v →
        Dict.get (expandEntry r tr) f = some v) ∧
      (∀ v, Dict.get tr "title" = some v → Dict.get tr "booktitle" = none →
        Dict.get (expandEntry r tr) "booktitle" = some v) ∧
      (∀ v, Dict.get tr "subtitle" = some v → Dict.get tr "booksubtitle" = none →
        Dict.get (expandEntry r tr) "booksubtitle" = some v) ∧
      (∀ f, f ∈ leave → Dict.get (expandEntry r tr) f = Dict.get r f) ∧
      (∀ f, f ≠ "crossref" → Dict.get tr f = none →
        (f = "booktitle" → Dict.get tr "title" = none) →
        (f = "booksubtitle" → Dict.get tr "subtitle" = none) →
        Dict.get (expandEntry r tr) f = Dict.get r f) := by
  obtain ⟨rs2, cr2, heq, hkeys2, hframe, horig, hsub, hpres2, hmain⟩ :=
    expandLoop_ok rs hres (Dict.keys rs) hnd rs [] (fun k hk => hk) rfl
      (fun k _ => rfl) (fun k r2 h1 _ => h1)
  have hkRmem : kR ∈ Dict.keys rs := Dict.mem_keys_of_get_eq_some rs kR r hR
  obtain ⟨hRexp, htcr⟩ := hmain kR hkRmem r t tr hR hcr hT htr
  have hkRnot : kR ∉ cr2 := by
    intro hin
    rcases horig kR hin with h | ⟨kv, hkv, hc⟩
    · exact absurd h (List.not_mem_nil kR)
    · exact hnoref kv hkv ("crossref", kR)
        (Dict.mem_of_get_eq_some kv.2 "crossref" kR hc) rfl rfl
  refine ⟨rs2.filter (fun p => !cr2.contains p.1), ?_, ?_, ?_, ?_, ?_, ?_, ?_, ?_, ?_⟩
  · simp only [expand, heq]
  · rw [Dict.get_filterKeys rs2 (fun k => !cr2.contains k) kR,
      contains_eq_false_of_not_mem hkRnot]
    simp only [Bool.not_false, if_true]
    exact hRexp
  · rw [Dict.get_filterKeys rs2 (fun k => !cr2.contains k) t]
    have hct : cr2.contains t = true := List.elem_eq_true_of_mem htcr
    rw [hct]
    simp
  · rw [expandEntry_get, if_pos rfl]
  · intro f v hf1 hf2 hf3 hf4 hf5 hf6 hget
    rw [expandEntry_get, if_neg hf6]
    have hlw : lastWrite f tr = Dict.get tr f := by
      apply lastWrite_single_source f f tr htrnd
      intro p _
      constructor
      · intro hm
        rcases mapTarget_inv p.1 f hm with h | h | h
        · exact h
        · exact absurd h.2 hf4
        · exact absurd h.2 hf5
      · intro hp
        rw [hp]
        exact mapTarget_self f hf1 hf2 hf3
    rw [hlw, hget]
  · intro v hti hbt
    rw [expandEntry_get, if_neg (by decide)]
    have hlw : lastWrite "booktitle" tr = Dict.get tr "title" := by
      apply lastWrite_single_source "booktitle" "title" tr htrnd
      intro p hp
      constructor
      · intro hm
        rcases mapTarget_inv p.1 "booktitle" hm with h | h | h
        · exact absurd h (Dict.key_ne_of_get_eq_none tr "booktitle" hbt p hp)
        · exact h.1
        · exact absurd h.2 (by decide)
      · intro hp1
        rw [hp1]
        rfl
    rw [hlw, hti]
  · intro v hti hbt
    rw [expandEntry_get, if_neg (by decide)]
    have hlw : lastWrite "booksubtitle" tr = Dict.get tr "subtitle" := by
      apply lastWrite_single_source "booksubtitle" "subtitle" tr htrnd
      intro p hp
      constructor
      · intro hm
        rcases mapTarget_inv p.1 "booksubtitle" hm with h | h | h
        · exact absurd h (Dict.key_ne_of_get_eq_none tr "booksubtitle" hbt p hp)
        · exact absurd h.2 (by decide)
        · exact h.1
      · intro hp1
        rw [hp1]
        rfl
    rw [hlw, hti]
  · intro f hf
    have hfcr : f ≠ "crossref" := by
      intro hh
      exact (by decide : ("crossref" : String) ∉ leave) (hh ▸ hf)
    rw [expandEntry_get, if_neg hfcr]
    have hlw : lastWrite f tr = none := by
      apply lastWrite_eq_none
      intro p _ hm
      rcases mapTarget_inv p.1 f hm with h | h | h
      · have hft : f ≠ "title" := by
          intro hh
          exact (by decide : ("title" : String) ∉ leave) (hh ▸ hf)
        have hfs : f ≠ "subtitle" := by
          intro hh
          exact (by decide : ("subtitle" : String) ∉ leave) (hh ▸ hf)
        have hnone2 : mapTarget f = none := by
          unfold mapTarget
          rw [if_neg hft, if_neg hfs, if_pos hf]
        rw [h, hnone2] at hm
        exact Option.noConfusion hm
      · exact (by decide : ("booktitle" : String) ∉ leave) (h.2 ▸ hf)
      · exact (by decide : ("booksubtitle" : String) ∉ leave) (h.2 ▸ hf)
    rw [hlw]
  · intro f hfcr hnone hbt hbs
    rw [expandEntry_get, if_neg hfcr]
    have hlw : lastWrite f tr = none := by
      apply lastWrite_eq_none
      intro p hp hm
      rcases mapTarget_inv p.1 f hm with h | h | h
      · exact Dict.key_ne_of_get_eq_none tr f hnone p hp h
      · exact Dict.key_ne_of_get_eq_none tr "title" (hbt h.2) p hp h.1
      · exact Dict.key_ne_of_get_eq_none tr "subtitle" (hbs h.2) p hp h.1
    rw [hlw]

/-- Witness for C1: `e1` (inbook, crossref `b1`) against `b1` (book,
title "Big Book", publisher "Acme"): `e1` gains `booktitle` and `publisher`
(the target wins over `e1`'s own publisher), keeps its `author`, loses
`crossref`; `b1` is deleted. -/
theorem crossref_expansion_witness :
    ∃ rs2, expand
        [("e1", [("id", "e1"), ("type", "inbook"), ("crossref", "b1"),
          ("author", "Doe, Jane"), ("publisher", "Old")]),
         ("b1", [("id", "b1"), ("type", "book"), ("title", "Big Book"),
          ("publisher", "Acme")])] = .ok rs2 ∧
      Dict.get rs2 "e1" = some (expandEntry
        [("id", "e1"), ("type", "inbook"), ("crossref", "b1"),
          ("author", "Doe, Jane"), ("publisher", "Old")]
        [("id", "b1"), ("type", "book"), ("title", "Big Book"), ("publisher", "Acme")]) ∧
      Dict.get rs2 "b1" = none ∧
      Dict.get (expandEntry
        [("id", "e1"), ("type", "inbook"), ("crossref", "b1"),
          ("author", "Doe, Jane"), ("publisher", "Old")]
        [("id", "b1"), ("type", "book"), ("title", "Big Book"), ("publisher", "Acme")])
        "crossref" = none ∧
      Dict.get (expandEntry
        [("id", "e1"), ("type", "inbook"), ("crossref", "b1"),
          ("author", "Doe, Jane"), ("publisher", "Old")]
        [("id", "b1"), ("type", "book"), ("title", "Big Book"), ("publisher", "Acme")])
        "booktitle" = some "Big Book" ∧
      Dict.get (expandEntry
        [("id", "e1"), ("type", "inbook"), ("crossref", "b1"),
          ("author", "Doe, Jane"), ("publisher", "Old")]
        [("id", "b1"), ("type", "book"), ("title", "Big Book"), ("publisher", "Acme")])
        "publisher" = some "Acme" ∧
      Dict.get (expandEntry
        [("id", "e1"), ("type", "inbook"), ("crossref", "b1"),
          ("author", "Doe, Jane"), ("publisher", "Old")]
        [("id", "b1"), ("type", "book"), ("title", "Big Book"), ("publisher", "Acme")])
        "author" = some "Doe, Jane" := by
  obtain ⟨rs2, h1, h2, h3, h4, h5, h6, _h7, _h8, h9⟩ :=
    crossref_expansion
      [("e1", [("id", "e1"), ("type", "inbook"), ("crossref", "b1"),
        ("author", "Doe, Jane"), ("publisher", "Old")]),
       ("b1", [("id", "b1"), ("type", "book"), ("title", "Big Book"),
        ("publisher", "Acme")])]
      "e1" "b1"
      [("id", "e1"), ("type", "inbook"), ("crossref", "b1"),
        ("author", "Doe, Jane"), ("publisher", "Old")]
      [("id", "b1"), ("type", "book"), ("title", "Big Book"), ("publisher", "Acme")]
      (by decide) (by decide) (by decide) (by decide) (by decide) (by decide)
      (by decide) (by decide)
  refine ⟨rs2, h1, h2, h3, h4, ?_, ?_, ?_⟩
  · exact h6 "Big Book" (by decide) (by decide)
  · exact h5 "publisher" "Acme" (by decide) (by decide) (by decide) (by decide)
      (by decide) (by decide) (by decide)
  · exact (h9 "author" (by decide) (by decide) (by decide) (by decide)).trans (by decide)

/-- Claim C10: if any record's `crossref` names a key absent from the set,
the expansion phase fails (the unguarded `entries[crossref]` lookup raises),
whereas the validation phase leaves the set untouched and reports the
missing target as a diagnostic. -/
theorem expand_missing_target_raises (rs : RecordSet) (k c : String) (r : Record)
    (hnd : (Dict.keys rs).Nodup)
    (hk : Dict.get rs k = some r)
    (hc : Dict.get r "crossref" = some c)
    (hmiss : c ∉ Dict.keys rs) :
    expand rs = .error () ∧
    (validate rs).1 = rs ∧
    (∀ rid, Dict.get r "id" = some rid →
      (c ++ " referenced by " ++ rid ++ " was not found.") ∈ (validate rs).2) := by
  refine ⟨?_, validateLoop_fst (Dict.keys rs) rs [], ?_⟩
  · have herr : expandLoop (Dict.keys rs) rs [] = .error () :=
      expandLoop_err rs (Dict.keys rs) hnd rs [] (fun k2 hk2 => hk2) rfl (fun k2 _ => rfl)
        ⟨k, Dict.mem_keys_of_get_eq_some rs k r hk, r, c, hk, hc, hmiss⟩
    simp only [expand, herr]
  · intro rid hrid
    apply validateLoop_msgs_of_entry (Dict.keys rs) rs [] k r
      (Dict.mem_keys_of_get_eq_some rs k r hk) hk
    have hcn : Dict.get rs c = none := Dict.get_eq_none_of_not_mem rs c hmiss
    simp only [validateEntry, hc, hrid, hcn, Option.getD_some]
    exact List.mem_append_left _ (List.mem_singleton_self _)

/-- Witness for C10: a single record `e1` with `crossref: missing`. -/
theorem expand_missing_target_raises_witness :
    expand [("e1", [("id", "e1"), ("type", "inbook"), ("crossref", "missing")])]
      = .error () ∧
    (validate [("e1", [("id", "e1"), ("type", "inbook"), ("crossref", "missing")])]).1
      = [("e1", [("id", "e1"), ("type", "inbook"), ("crossref", "missing")])] ∧
    (∀ rid, Dict.get [("id", "e1"), ("type", "inbook"), ("crossref", "missing")] "id"
        = some rid →
      ("missing" ++ " referenced by " ++ rid ++ " was not found.")
        ∈ (validate [("e1", [("id", "e1"), ("type", "inbook"),
            ("crossref", "missing")])]).2) :=
  expand_missing_target_raises
    [("e1", [("id", "e1"), ("type", "inbook"), ("crossref", "missing")])]
    "e1" "missing" [("id", "e1"), ("type", "inbook"), ("crossref", "missing")]
    (by decide) (by decide) (by decide) (by decide)

/-! ## convertbibliography.py : the remaining field normalizers -/

/-- The Python pattern `if "f" in record: record["f"] = g(record["f"])`. -/
def updateField (r : Record) (f : String) (g : String → String) : Record :=
  match Dict.get r f with
  | none => r
  | some v => Dict.set r f (g v)

/-- The Python pattern `if "f" in record: del record["f"]`. -/
def deleteField (r : Record) (f : String) : Record :=
  match Dict.get r f with
  | none => r
  | some _ => Dict.eraseKey r f

theorem updateField_none (r : Record) (f : String) (g : String → String)
    (h : Dict.get r f = none) : updateField r f g = r := by
  simp [updateField, h]

theorem deleteField_none (r : Record) (f : String)
    (h : Dict.get r f = none) : deleteField r f = r := by
  simp [deleteField, h]

theorem get_updateField_ne (r : Record) (f : String) (g : String → String)
    (k : String) (h : k ≠ f) : Dict.get (updateField r f g) k = Dict.get r k := by
  cases hf : Dict.get r f with
  | none => simp [updateField, hf]
  | some v =>
    simp only [updateField, hf]
    exact Dict.get_set_ne r f k _ h

theorem get_deleteField_ne (r : Record) (f k : String) (h : k ≠ f) :
    Dict.get (deleteField r f) k = Dict.get r k := by
  cases hf : Dict.get r f with
  | none => simp [deleteField, hf]
  | some v =>
    simp only [deleteField, hf]
    exact Dict.get_eraseKey_ne r f k h

/-- `words_to_numerals` from convertbibliography.py. -/
def words_to_numerals : Dict String :=
  [("first", "1"), ("second", "2"), ("third", "3"), ("fourth", "4"),
   ("fifth", "5"), ("sixth", "6"), ("seventh", "7"), ("eighth", "8"),
   ("ninth", "9"), ("tenth", "10")]

/-- ASCII lowering of a string (Python `str.lower()` on ASCII input). -/
def lowerStr (s : String) : String := String.mk (s.data.map lowChar)

/-- `re.sub` of a single character by a fixed replacement. -/
def subChar (c : Char) (rep : List Char) : List Char → List Char
  | [] => []
  | x :: rest => if x = c then rep ++ subChar c rep rest else x :: subChar c rep rest

/-- `dashes` on one value: `re.sub` of the en dash to `--` then of the em dash to `---`. -/
def dashStr (s : String) : String :=
  String.mk (subChar '—' ['-', '-', '-'] (subChar '–' ['-', '-'] s.data))

/-- `dashes` from convertbibliography.py: rewrite EVERY field value
(`for field in record`, `id` included). -/
def dashes (r : Record) : Record := r.map (fun p => (p.1, dashStr p.2))

/-- `re.sub('-+', '--', v)`: collapse every run of hyphens to exactly two. -/
def collapseHyphens : List Char → List Char
  | [] => []
  | c :: rest =>
    if c = '-' then '-' :: '-' :: collapseHyphens (rest.dropWhile (· == '-'))
    else c :: collapseHyphens rest
termination_by l => l.length
decreasing_by
  · simp only [List.length_cons]
    exact Nat.lt_succ_of_le (List.dropWhile_sublist _).length_le
  · simp only [List.length_cons]
    exact Nat.lt_succ_self _

/-- `non_page_hyphens` from convertbibliography.py. -/
def non_page_hyphens (r : Record) : Record :=
  updateField (updateField (updateField r
    "volume" (fun v => String.mk (collapseHyphens v.data)))
    "issue" (fun v => String.mk (collapseHyphens v.data)))
    "number" (fun v => String.mk (collapseHyphens v.data))

/-- `re.sub('http://dx.doi.org/', '', doi)`: the pattern is a regex, so the
two dots match ANY character; remove every (18-character) match. -/
def removeResolver : List Char → List Char
  | 'h' :: 't' :: 't' :: 'p' :: ':' :: '/' :: '/' :: 'd' :: 'x' :: _ :: 'd' :: 'o'
      :: 'i' :: _ :: 'o' :: 'r' :: 'g' :: '/' :: rest => removeResolver rest
  | c :: rest => c :: removeResolver rest
  | [] => []

/-- `remove_resolver` from convertbibliography.py. -/
def remove_resolver (doi : String) : String := String.mk (removeResolver doi.data)

/-- `strip_doi` from convertbibliography.py. -/
def strip_doi (r : Record) : Record :=
  updateField r "doi" remove_resolver

/-- `titlecase_name` from convertbibliography.py. -/
def titlecase_name (r : Record) : Record :=
  updateField (updateField r "author" title_name) "editor" title_name

/-- `re.search('and', v)`: `v` contains the substring `and`. -/
def containsAnd : List Char → Bool
  | 'a' :: 'n' :: 'd' :: _ => true
  | _ :: rest => containsAnd rest
  | [] => false

/-- `braces` from convertbibliography.py: enclose in braces unless already
present (the closing brace is tested on the possibly-prefixed string). -/
def braces (s : String) : String :=
  let s1 := if s.startsWith "\x7b" then s else "\x7b" ++ s
  if s1.endsWith "\x7d" then s1 else s1 ++ "\x7d"

/-- `publisher` from convertbibliography.py. -/
def publisher (r : Record) : Record :=
  match Dict.get r "publisher" with
  | none => r
  | some p => if containsAnd p.data then Dict.set r "publisher" (braces p) else r

/-- Start of an ordinal suffix `st|nd|rd|th`. -/
def isSuffixStart : List Char → Bool
  | a :: b :: _ =>
    decide ((a = 's' ∧ b = 't') ∨ (a = 'n' ∧ b = 'd') ∨ (a = 'r' ∧ b = 'd')
      ∨ (a = 't' ∧ b = 'h'))
  | _ => false

/-- `re.search('\\d+(st|nd|rd|th)', v)`: somewhere a digit is followed
(after the rest of its run) by an ordinal suffix; equivalently some digit is
immediately followed by a suffix. -/
def hasOrdinal : List Char → Bool
  | [] => false
  | c :: rest => (c.isDigit && isSuffixStart rest) || hasOrdinal rest

/-- `re.sub('(st|nd|rd|th)', '', v)`: delete every occurrence of the four
two-character sequences, scanning left to right. -/
def removeOrd : List Char → List Char
  | a :: b :: rest =>
    if (a = 's' ∧ b = 't') ∨ (a = 'n' ∧ b = 'd') ∨ (a = 'r' ∧ b = 'd')
        ∨ (a = 't' ∧ b = 'h')
    then removeOrd rest
    else a :: removeOrd (b :: rest)
  | l => l

/-- `edition` from convertbibliography.py. -/
def edition (r : Record) : Record :=
  match Dict.get r "edition" with
  | none => r
  | some e =>
    let el := String.mk (stripChars (lowerStr e).data)
    match Dict.get words_to_numerals el with
    | some n => Dict.set r "edition" n
    | none =>
      if hasOrdinal el.data then Dict.set r "edition" (String.mk (removeOrd el.data))
      else r

/-- `journaltitle` from convertbibliography.py. -/
def journaltitle (r : Record) : Record :=
  match Dict.get r "journal" with
  | none => r
  | some j => Dict.eraseKey (Dict.set r "journaltitle" j) "journal"

/-- `case_title` from convertbibliography.py, parameterised by the external
`titlecase.titlecase` function (an external collaborator). -/
def case_title (tc : String → String) (r : Record) : Record :=
  updateField (updateField (updateField r "title" tc) "subtitle" tc) "booktitle" tc

/-- `booktitle` from convertbibliography.py (reads the mandatory `type`
field unguarded: `none` models the KeyError on a type-less record). -/
def booktitle (r : Record) : Option Record :=
  match Dict.get r "type" with
  | none => none
  | some ty =>
    if ty = "book" then
      match Dict.get r "title" with
      | none => some r
      | some ti => some (Dict.set r "booktitle" ti)
    else some r

/-- `remove_abstract` from convertbibliography.py. -/
def remove_abstract (r : Record) : Record :=
  deleteField r "abstract"

/-- `remove_ISSN` from convertbibliography.py. -/
def remove_ISSN (r : Record) : Record :=
  deleteField r "issn"

/-- `remove_ISBN` from convertbibliography.py. -/
def remove_ISBN (r : Record) : Record :=
  deleteField r "isbn"

/-- `remove_copyright` from convertbibliography.py. -/
def remove_copyright (r : Record) : Record :=
  deleteField r "copyright"

/-- `remove_language` from convertbibliography.py. -/
def remove_language (r : Record) : Record :=
  deleteField r "language"

/-- `remove_link` from convertbibliography.py. -/
def remove_link (r : Record) : Record :=
  deleteField r "link"

/-- `remove_booktitle` from convertbibliography.py. -/
def remove_booktitle (r : Record) : Record :=
  deleteField r "booktitle"

/-- `remove_publisher` from convertbibliography.py (unguarded `type` read). -/
def remove_publisher (r : Record) : Option Record :=
  match Dict.get r "type" with
  | none => none
  | some ty =>
    if ty = "article" then
      match Dict.get r "publisher" with
      | none => some r
      | some _ => some (Dict.eraseKey r "publisher")
    else some r

/-- `jstor` from convertbibliography.py. -/
def jstor (r : Record) : Record :=
  deleteField (deleteField (deleteField r "jstor_articletype")
    "jstor_formatteddate") "jstor_issuetitle"

/-- `re.sub('\\\\&', 'and', v)`: replace the two-character sequence
backslash-ampersand by `and`. -/
def subEscAmp : List Char → List Char
  | '\\' :: '&' :: rest => 'a' :: 'n' :: 'd' :: subEscAmp rest
  | c :: rest => c :: subEscAmp rest
  | [] => []

/-- `remove_ampersand` from convertbibliography.py. -/
def remove_ampersand (r : Record) : Record :=
  updateField (updateField (updateField (updateField r
    "booktitle" (fun v => String.mk (subEscAmp v.data)))
    "journaltitle" (fun v => String.mk (subEscAmp v.data)))
    "subtitle" (fun v => String.mk (subEscAmp v.data)))
    "title" (fun v => String.mk (subEscAmp v.data))

/-- `re.sub('[Pp]{1,2}\\.?', '', v)`: remove every occurrence of one or two
`p`s with an optional following dot (greedy, leftmost). -/
def dropDot : List Char → List Char
  | [] => []
  | c :: rest => if c = '.' then rest else c :: rest

theorem dropDot_length_le (l : List Char) : (dropDot l).length ≤ l.length := by
  cases l with
  | nil => exact Nat.le_refl _
  | cons c rest =>
    by_cases hc : c = '.'
    · simp [dropDot, hc]
    · simp [dropDot, hc]

def removePP : List Char → List Char
  | [] => []
  | [c] => if c = 'P' ∨ c = 'p' then [] else [c]
  | c :: c2 :: rest =>
    if c = 'P' ∨ c = 'p' then
      if c2 = 'P' ∨ c2 = 'p' then removePP (dropDot rest)
      else if c2 = '.' then removePP rest
      else removePP (c2 :: rest)
    else c :: removePP (c2 :: rest)
termination_by l => l.length
decreasing_by
  · simp only [List.length_cons]
    have := dropDot_length_le rest
    omega
  · simp only [List.length_cons]
    omega
  · simp only [List.length_cons]
    omega
  · simp only [List.length_cons]
    omega

/-- `remove_pp` from convertbibliography.py. -/
def remove_pp (r : Record) : Record :=
  updateField r "pages" (fun p => String.mk (stripChars (removePP p.data)))

/-- One word of `protect`: wrap in braces when it starts uppercase. -/
def protectTok : List Char → List Char
  | [] => []
  | c :: rest => if c.isUpper then '\x7b' :: c :: rest ++ ['\x7d'] else c :: rest

/-- `protect` from convertbibliography.py: `l = s.split()` followed by
`l[0] + ' ' + ...`; on a string with no words `l[0]` raises an IndexError,
modelled as `none`. -/
def protect (s : String) : Option String :=
  match splitWs s.data with
  | [] => none
  | w :: ws => some (String.mk (w ++ ' ' :: joinSp (ws.map protectTok)))

/-- One field of `protect_capitalisation`. -/
def protectField (f : String) (r : Record) : Option Record :=
  match Dict.get r f with
  | none => some r
  | some v =>
    match protect v with
    | none => none
    | some v2 => some (Dict.set r f v2)

/-- `protect_capitalisation` from convertbibliography.py: `protect` applied
to `title`, `subtitle`, `booktitle` in that order; an exception anywhere
aborts (`none`). -/
def protect_capitalisation (r : Record) : Option Record :=
  (protectField "title" r).bind (fun r1 =>
    (protectField "subtitle" r1).bind (fun r2 => protectField "booktitle" r2))

/-- `multivolume` from convertbibliography.py (unguarded `type` read). -/
def multivolume (r : Record) : Option Record :=
  match Dict.get r "type" with
  | none => none
  | some ty =>
    if ty = "book" then
      match Dict.get r "volume" with
      | none => some r
      | some _ => some (Dict.set r "type" "mvbook")
    else if ty = "collection" then
      match Dict.get r "volume" with
      | none => some r
      | some _ => some (Dict.set r "type" "mvcollection")
    else some r

/-- The outcome of the single CrossRef API call of `get_doi`: either a
connection error or a response with a status code. -/
inductive LookupOutcome : Type
  | connError : LookupOutcome
  | response : Nat → LookupOutcome

/-- The search term of `get_doi`: the title, then a space and the author
(each contributing only when present). -/
def doiQuery (r : Record) : String :=
  (match Dict.get r "title" with | some ti => ti | none => "")
    ++ (match Dict.get r "author" with | some au => " " ++ au | none => "")

/-- `get_doi` from convertbibliography.py.  On a 200 response the source
executes `record["doi"] = hodgson.remove_resolver(...)`, but no module
`hodgson` is imported or defined anywhere in the file: evaluating the name
raises a NameError BEFORE the JSON is inspected, and neither
`except IndexError` nor `except requests.exceptions.ConnectionError`
catches it, so it propagates out of `get_doi`. -/
def get_doi (r : Record) (outcome : LookupOutcome) : Except String Record :=
  match Dict.get r "type" with
  | none => .error "KeyError: type"
  | some ty =>
    if ty = "article" ∧ Dict.get r "doi" = none then
      if doiQuery r ≠ "" then
        match outcome with
        | .connError => .ok r
        | .response status =>
          if status = 200 then .error "NameError: name hodgson is not defined"
          else .ok r
      else .ok r
    else .ok r

/-- Claim C3 (code bug): for an `article` without a `doi`, a successful
lookup (HTTP 200) makes `get_doi` raise an uncaught NameError — the source
calls `hodgson.remove_resolver(...)` but no `hodgson` exists in the file —
instead of populating `doi`; only the connection-error and bad-status paths
leave the record unchanged and emit a diagnostic. -/
theorem get_doi_name_error :
    get_doi [("id", "a1"), ("type", "article"), ("title", "T")]
        (LookupOutcome.response 200)
      = .error "NameError: name hodgson is not defined" ∧
    get_doi [("id", "a1"), ("type", "article"), ("title", "T")]
        LookupOutcome.connError
      = .ok [("id", "a1"), ("type", "article"), ("title", "T")] ∧
    get_doi [("id", "a1"), ("type", "article"), ("title", "T")]
        (LookupOutcome.response 500)
      = .ok [("id", "a1"), ("type", "article"), ("title", "T")] :=
  ⟨rfl, rfl, rfl⟩

/-- Claim C5 counterexample: `protect_capitalisation` is NOT total: on a
record whose `title` is present but empty, `protect` evaluates `l[0]` of an
empty word list (an IndexError), modelled as `none`. -/
theorem protect_empty_title_counterexample :
    protect_capitalisation [("id", "k1"), ("type", "book"), ("title", "")] = none ∧
    protect "" = none := by
  decide

theorem protectField_isSome (f : String) (r : Record)
    (h : ∀ s, Dict.get r f = some s → splitWs s.data ≠ []) :
    ∃ r2, protectField f r = some r2 ∧ ∀ g, g ≠ f → Dict.get r2 g = Dict.get r g := by
  cases hf : Dict.get r f with
  | none => exact ⟨r, by simp [protectField, hf], fun g _ => rfl⟩
  | some v =>
    have hsp := h v hf
    cases hs : splitWs v.data with
    | nil => exact absurd hs hsp
    | cons w ws =>
      refine ⟨Dict.set r f (String.mk (w ++ ' ' :: joinSp (ws.map protectTok))), ?_, ?_⟩
      · simp [protectField, hf, protect, hs]
      · intro g hg
        exact Dict.get_set_ne r f g _ hg

/-- Claim C5 (amended): every modelled field normalizer treats a missing
targeted field as a no-op (with the mandatory `type` field present where the
source reads it unguarded), and all are total on such records EXCEPT
`protect_capitalisation`, which fails exactly when a present
title/subtitle/booktitle value has no whitespace-delimited words, and the
DOI enrichment step (see the DOI claim). -/
theorem normalizers_missing_field_noop :
    (∀ r : Record, Dict.get r "author" = none → Dict.get r "editor" = none →
      titlecase_name r = r) ∧
    (∀ r : Record, Dict.get r "edition" = none → edition r = r) ∧
    (∀ r : Record, Dict.get r "journal" = none → journaltitle r = r) ∧
    (∀ r : Record, Dict.get r "publisher" = none → publisher r = r) ∧
    (∀ r : Record, Dict.get r "doi" = none → strip_doi r = r) ∧
    (∀ r : Record, Dict.get r "volume" = none → Dict.get r "issue" = none →
      Dict.get r "number" = none → non_page_hyphens r = r) ∧
    (∀ r : Record, Dict.get r "pages" = none → remove_pp r = r) ∧
    (∀ r : Record, Dict.get r "booktitle" = none → Dict.get r "journaltitle" = none →
      Dict.get r "subtitle" = none → Dict.get r "title" = none →
      remove_ampersand r = r) ∧
    (∀ r : Record, Dict.get r "abstract" = none → remove_abstract r = r) ∧
    (∀ r : Record, Dict.get r "issn" = none → remove_ISSN r = r) ∧
    (∀ r : Record, Dict.get r "isbn" = none → remove_ISBN r = r) ∧
    (∀ r : Record, Dict.get r "copyright" = none → remove_copyright r = r) ∧
    (∀ r : Record, Dict.get r "language" = none → remove_language r = r) ∧
    (∀ r : Record, Dict.get r "link" = none → remove_link r = r) ∧
    (∀ r : Record, Dict.get r "booktitle" = none → remove_booktitle r = r) ∧
    (∀ r : Record, Dict.get r "jstor_articletype" = none →
      Dict.get r "jstor_formatteddate" = none →
      Dict.get r "jstor_issuetitle" = none → jstor r = r) ∧
    (∀ (tc : String → String) (r : Record), Dict.get r "title" = none →
      Dict.get r "subtitle" = none → Dict.get r "booktitle" = none →
      case_title tc r = r) ∧
    (∀ (r : Record) (ty : String), Dict.get r "type" = some ty →
      Dict.get r "volume" = none → multivolume r = some r) ∧
    (∀ (r : Record) (ty : String), Dict.get r "type" = some ty →
      Dict.get r "title" = none → booktitle r = some r) ∧
    (∀ (r : Record) (ty : String), Dict.get r "type" = some ty →
      Dict.get r "publisher" = none → remove_publisher r = some r) ∧
    (∀ (r : Record) (ty : String) (o : LookupOutcome) (d : String),
      Dict.get r "type" = some ty → Dict.get r "doi" = some d →
      get_doi r o = .ok r) ∧
    (∀ (r : Record) (ty : String) (o : LookupOutcome),
      Dict.get r "type" = some ty → ty ≠ "article" → get_doi r o = .ok r) ∧
    (∀ r : Record, Dict.get r "title" = none → Dict.get r "subtitle" = none →
      Dict.get r "booktitle" = none → protect_capitalisation r = some r) ∧
    (∀ r : Record,
      (∀ p ∈ r, (p.1 = "title" ∨ p.1 = "subtitle" ∨ p.1 = "booktitle") →
        splitWs p.2.data ≠ []) →
      (protect_capitalisation r).isSome) := by
  refine ⟨?_, ?_, ?_, ?_, ?_, ?_, ?_, ?_, ?_, ?_, ?_, ?_, ?_, ?_, ?_, ?_, ?_, ?_,
    ?_, ?_, ?_, ?_, ?_, ?_⟩
  · intro r h1 h2
    unfold titlecase_name
    rw [updateField_none r "author" _ h1, updateField_none r "editor" _ h2]
  · intro r h1
    simp only [edition, h1]
  · intro r h1
    simp only [journaltitle, h1]
  · intro r h1
    simp only [publisher, h1]
  · intro r h1
    unfold strip_doi
    rw [updateField_none r "doi" _ h1]
  · intro r h1 h2 h3
    unfold non_page_hyphens
    rw [updateField_none r "volume" _ h1, updateField_none r "issue" _ h2,
      updateField_none r "number" _ h3]
  · intro r h1
    unfold remove_pp
    rw [updateField_none r "pages" _ h1]
  · intro r h1 h2 h3 h4
    unfold remove_ampersand
    rw [updateField_none r "booktitle" _ h1, updateField_none r "journaltitle" _ h2,
      updateField_none r "subtitle" _ h3, updateField_none r "title" _ h4]
  · intro r h1
    unfold remove_abstract
    rw [deleteField_none r "abstract" h1]
  · intro r h1
    unfold remove_ISSN
    rw [deleteField_none r "issn" h1]
  · intro r h1
    unfold remove_ISBN
    rw [deleteField_none r "isbn" h1]
  · intro r h1
    unfold remove_copyright
    rw [deleteField_none r "copyright" h1]
  · intro r h1
    unfold remove_language
    rw [deleteField_none r "language" h1]
  · intro r h1
    unfold remove_link
    rw [deleteField_none r "link" h1]
  · intro r h1
    unfold remove_booktitle
    rw [deleteField_none r "booktitle" h1]
  · intro r h1 h2 h3
    unfold jstor
    rw [deleteField_none r "jstor_articletype" h1,
      deleteField_none r "jstor_formatteddate" h2,
      deleteField_none r "jstor_issuetitle" h3]
  · intro tc r h1 h2 h3
    unfold case_title
    rw [updateField_none r "title" _ h1, updateField_none r "subtitle" _ h2,
      updateField_none r "booktitle" _ h3]
  · intro r ty hty hvol
    by_cases h1 : ty = "book" <;> by_cases h2 : ty = "collection" <;>
      simp [multivolume, hty, hvol, h1, h2]
  · intro r ty hty hti
    by_cases h1 : ty = "book" <;> simp [booktitle, hty, hti, h1]
  · intro r ty hty hpub
    by_cases h1 : ty = "article" <;> simp [remove_publisher, hty, hpub, h1]
  · intro r ty o d hty hdoi
    simp only [get_doi, hty]
    rw [if_neg (fun hcon => Option.noConfusion (hdoi.symm.trans hcon.2))]
  · intro r ty o hty hne
    simp only [get_doi, hty]
    rw [if_neg (fun hcon => hne hcon.1)]
  · intro r h1 h2 h3
    simp only [protect_capitalisation, protectField, h1, h2, h3, Option.bind]
  · intro r h
    have hfield : ∀ (rx : Record) (f : String),
        (f = "title" ∨ f = "subtitle" ∨ f = "booktitle") →
        (∀ s, Dict.get rx f = some s → Dict.get r f = some s) →
        ∀ s, Dict.get rx f = some s → splitWs s.data ≠ [] := by
      intro rx f hforig hsame s hs
      exact h ((f, s)) (Dict.mem_of_get_eq_some r f s (hsame s hs)) hforig
    obtain ⟨r1, hr1, hpre1⟩ :=
      protectField_isSome "title" r
        (hfield r "title" (Or.inl rfl) (fun s hs => hs))
    obtain ⟨r2, hr2, hpre2⟩ :=
      protectField_isSome "subtitle" r1
        (hfield r1 "subtitle" (Or.inr (Or.inl rfl))
          (fun s hs => (hpre1 "subtitle" (by decide)).symm.trans hs))
    obtain ⟨r3, hr3, _⟩ :=
      protectField_isSome "booktitle" r2
        (hfield r2 "booktitle" (Or.inr (Or.inr rfl))
          (fun s hs => (hpre1 "booktitle" (by decide)).symm.trans
            ((hpre2 "booktitle" (by decide)).symm.trans hs)))
    simp [protect_capitalisation, hr1, hr2, hr3]

/-- Witness for C5 (amended): a record with no optional fields passes every
normalizer unchanged, and `protect_capitalisation` succeeds on a record
whose title-like fields all contain words. -/
theorem normalizers_missing_field_noop_witness :
    titlecase_name [("id", "k1"), ("type", "article")]
      = [("id", "k1"), ("type", "article")] ∧
    (protect_capitalisation
      [("id", "k1"), ("type", "book"), ("title", "A Nice Title")]).isSome := by
  constructor
  · exact normalizers_missing_field_noop.1 [("id", "k1"), ("type", "article")]
      (by decide) (by decide)
  · exact (normalizers_missing_field_noop.2.2.2.2.2.2.2.2.2.2.2.2.2.2.2.2.2.2.2.2.2.2.2)
      [("id", "k1"), ("type", "book"), ("title", "A Nice Title")] (by decide)

theorem escapeGo_of_not_mem (c : Char) : ∀ (l : List Char) (prev : Option Char),
    (∀ x ∈ l, x ≠ c) → escapeGo c prev l = l := by
  intro l
  induction l with
  | nil => intro prev _; rfl
  | cons x rest ih =>
    intro prev h
    have hx : x ≠ c := h x (List.mem_cons_self x rest)
    have hcond : ¬ (x = c ∧ prev ≠ some '\\') := fun hc => hx hc.1
    simp only [escapeGo, if_neg hcond]
    rw [ih (some x) (fun y hy => h y (List.mem_cons_of_mem x hy))]

theorem subChar_of_not_mem (c : Char) (rep : List Char) :
    ∀ l : List Char, (∀ x ∈ l, x ≠ c) → subChar c rep l = l := by
  intro l
  induction l with
  | nil => intro _; rfl
  | cons x rest ih =>
    intro h
    have hx : x ≠ c := h x (List.mem_cons_self x rest)
    simp only [subChar, if_neg hx]
    rw [ih (fun y hy => h y (List.mem_cons_of_mem x hy))]

theorem protectField_get_ne (f : String) (r ra : Record) (k : String) (hk : k ≠ f)
    (h : protectField f r = some ra) : Dict.get ra k = Dict.get r k := by
  unfold protectField at h
  cases hf : Dict.get r f with
  | none =>
    simp only [hf] at h
    injection h with h2
    subst h2
    rfl
  | some v =>
    simp only [hf] at h
    cases hp : protect v with
    | none =>
      simp only [hp] at h
      exact Option.noConfusion h
    | some v2 =>
      simp only [hp] at h
      injection h with h2
      subst h2
      exact Dict.get_set_ne r f k _ hk

/-- Claim C7 counterexample: the all-field rewriters do change `id`:
escaping turns id `a_b` into `a\_b`, dash unification turns an en-dash in
the id into `--`. -/
theorem escape_id_counterexample :
    Dict.get (escape_characters [("id", "a_b"), ("type", "article")]) "id"
      = some "a\\_b" ∧
    Dict.get (dashes [("id", "a–b"), ("type", "article")]) "id" = some "a--b" := by
  decide

/-- Claim C7 (amended): the field-targeted normalizers never change the
record's `id`; the all-field rewriters (`escape_characters`, `dashes`)
rewrite every field INCLUDING `id`, and leave it unchanged whenever its
value contains none of the characters they rewrite. -/
theorem normalizers_id_preservation :
    (∀ (r : Record) (v : String), Dict.get r "id" = some v →
      (∀ c ∈ v.data, c ≠ '&' ∧ c ≠ '%' ∧ c ≠ '_') →
      Dict.get (escape_characters r) "id" = some v) ∧
    (∀ (r : Record) (v : String), Dict.get r "id" = some v →
      (∀ c ∈ v.data, c ≠ '–' ∧ c ≠ '—') →
      Dict.get (dashes r) "id" = some v) ∧
    (∀ r : Record, Dict.get (titlecase_name r) "id" = Dict.get r "id") ∧
    (∀ r : Record, Dict.get (journaltitle r) "id" = Dict.get r "id") ∧
    (∀ r : Record, Dict.get (strip_doi r) "id" = Dict.get r "id") ∧
    (∀ r : Record, Dict.get (edition r) "id" = Dict.get r "id") ∧
    (∀ r : Record, Dict.get (publisher r) "id" = Dict.get r "id") ∧
    (∀ r : Record, Dict.get (non_page_hyphens r) "id" = Dict.get r "id") ∧
    (∀ r : Record, Dict.get (remove_pp r) "id" = Dict.get r "id") ∧
    (∀ r : Record, Dict.get (remove_ampersand r) "id" = Dict.get r "id") ∧
    (∀ r : Record, Dict.get (remove_abstract r) "id" = Dict.get r "id") ∧
    (∀ r : Record, Dict.get (jstor r) "id" = Dict.get r "id") ∧
    (∀ (tc : String → String) (r : Record),
      Dict.get (case_title tc r) "id" = Dict.get r "id") ∧
    (∀ (r r2 : Record), multivolume r = some r2 →
      Dict.get r2 "id" = Dict.get r "id") ∧
    (∀ (r r2 : Record), protect_capitalisation r = some r2 →
      Dict.get r2 "id" = Dict.get r "id") ∧
    (∀ (r r2 : Record) (o : LookupOutcome), get_doi r o = .ok r2 →
      Dict.get r2 "id" = Dict.get r "id") := by
  refine ⟨?_, ?_, ?_, ?_, ?_, ?_, ?_, ?_, ?_, ?_, ?_, ?_, ?_, ?_, ?_, ?_⟩
  · intro r v hv hchars
    rw [show escape_characters r = r.map (fun p => (p.1, escapeValue p.2)) from rfl,
      Dict.get_mapVal, hv]
    have h1 : escapeGo '&' none v.data = v.data :=
      escapeGo_of_not_mem '&' v.data none (fun x hx => (hchars x hx).1)
    have h2 : escapeGo '%' none v.data = v.data :=
      escapeGo_of_not_mem '%' v.data none (fun x hx => (hchars x hx).2.1)
    have h3 : escapeGo '_' none v.data = v.data :=
      escapeGo_of_not_mem '_' v.data none (fun x hx => (hchars x hx).2.2)
    have : escapeValue v = v := by
      unfold escapeValue escapeChar
      rw [h1, h2, h3]
    rw [Option.map_some', this]
  · intro r v hv hchars
    rw [show dashes r = r.map (fun p => (p.1, dashStr p.2)) from rfl,
      Dict.get_mapVal, hv]
    have h1 : subChar '–' ['-', '-'] v.data = v.data :=
      subChar_of_not_mem '–' _ v.data (fun x hx => (hchars x hx).1)
    have h2 : subChar '—' ['-', '-', '-'] v.data = v.data :=
      subChar_of_not_mem '—' _ v.data (fun x hx => (hchars x hx).2)
    have : dashStr v = v := by
      unfold dashStr
      rw [h1, h2]
    rw [Option.map_some', this]
  · intro r
    unfold titlecase_name
    rw [get_updateField_ne _ "editor" _ "id" (by decide),
      get_updateField_ne _ "author" _ "id" (by decide)]
  · intro r
    cases hj : Dict.get r "journal" with
    | none => simp [journaltitle, hj]
    | some j =>
      simp only [journaltitle, hj]
      rw [Dict.get_eraseKey_ne _ "journal" "id" (by decide),
        Dict.get_set_ne r "journaltitle" "id" _ (by decide)]
  · intro r
    unfold strip_doi
    rw [get_updateField_ne _ "doi" _ "id" (by decide)]
  · intro r
    cases he : Dict.get r "edition" with
    | none => simp [edition, he]
    | some e =>
      simp only [edition, he]
      cases hw : Dict.get words_to_numerals (String.mk (stripChars (lowerStr e).data)) with
      | some n =>
        simp only [hw]
        exact Dict.get_set_ne r "edition" "id" _ (by decide)
      | none =>
        simp only [hw]
        by_cases ho : hasOrdinal (stripChars (lowerStr e).data) = true
        · rw [if_pos ho]
          exact Dict.get_set_ne r "edition" "id" _ (by decide)
        · rw [if_neg ho]
  · intro r
    cases hp : Dict.get r "publisher" with
    | none => simp [publisher, hp]
    | some p =>
      simp only [publisher, hp]
      by_cases hc : containsAnd p.data = true
      · rw [if_pos hc]
        exact Dict.get_set_ne r "publisher" "id" _ (by decide)
      · rw [if_neg hc]
  · intro r
    unfold non_page_hyphens
    rw [get_updateField_ne _ "number" _ "id" (by decide),
      get_updateField_ne _ "issue" _ "id" (by decide),
      get_updateField_ne _ "volume" _ "id" (by decide)]
  · intro r
    unfold remove_pp
    rw [get_updateField_ne _ "pages" _ "id" (by decide)]
  · intro r
    unfold remove_ampersand
    rw [get_updateField_ne _ "title" _ "id" (by decide),
      get_updateField_ne _ "subtitle" _ "id" (by decide),
      get_updateField_ne _ "journaltitle" _ "id" (by decide),
      get_updateField_ne _ "booktitle" _ "id" (by decide)]
  · intro r
    unfold remove_abstract
    rw [get_deleteField_ne _ "abstract" "id" (by decide)]
  · intro r
    unfold jstor
    rw [get_deleteField_ne _ "jstor_issuetitle" "id" (by decide),
      get_deleteField_ne _ "jstor_formatteddate" "id" (by decide),
      get_deleteField_ne _ "jstor_articletype" "id" (by decide)]
  · intro tc r
    unfold case_title
    rw [get_updateField_ne _ "booktitle" _ "id" (by decide),
      get_updateField_ne _ "subtitle" _ "id" (by decide),
      get_updateField_ne _ "title" _ "id" (by decide)]
  · intro r r2 h
    unfold multivolume at h
    cases hty : Dict.get r "type" with
    | none =>
      simp only [hty] at h
      exact Option.noConfusion h
    | some ty =>
      simp only [hty] at h
      by_cases h1 : ty = "book"
      · rw [if_pos h1] at h
        cases hvol : Dict.get r "volume" with
        | none =>
          simp only [hvol] at h
          injection h with h3
          rw [← h3]
        | some v =>
          simp only [hvol] at h
          injection h with h3
          rw [← h3]
          exact Dict.get_set_ne r "type" "id" _ (by decide)
      · rw [if_neg h1] at h
        by_cases h2 : ty = "collection"
        · rw [if_pos h2] at h
          cases hvol : Dict.get r "volume" with
          | none =>
            simp only [hvol] at h
            injection h with h3
            rw [← h3]
          | some v =>
            simp only [hvol] at h
            injection h with h3
            rw [← h3]
            exact Dict.get_set_ne r "type" "id" _ (by decide)
        · rw [if_neg h2] at h
          injection h with h3
          rw [← h3]
  · intro r r2 h
    unfold protect_capitalisation at h
    cases h1 : protectField "title" r with
    | none =>
      rw [h1] at h
      exact Option.noConfusion h
    | some ra =>
      rw [h1] at h
      have hb : (protectField "subtitle" ra).bind
          (fun rb => protectField "booktitle" rb) = some r2 := h
      cases h2 : protectField "subtitle" ra with
      | none =>
        rw [h2] at hb
        exact Option.noConfusion hb
      | some rb =>
        rw [h2] at hb
        have hc : protectField "booktitle" rb = some r2 := hb
        calc Dict.get r2 "id"
            = Dict.get rb "id" := protectField_get_ne "booktitle" rb r2 "id" (by decide) hc
          _ = Dict.get ra "id" := protectField_get_ne "subtitle" ra rb "id" (by decide) h2
          _ = Dict.get r "id" := protectField_get_ne "title" r ra "id" (by decide) h1
  · intro r r2 o h
    unfold get_doi at h
    repeat' split at h
    all_goals cases h
    all_goals rfl

/-- Witness for C7 (amended): ids without special characters survive the
all-field rewriters, and a field-targeted normalizer keeps `id`. -/
theorem normalizers_id_preservation_witness :
    Dict.get (escape_characters [("id", "smith2000"), ("title", "A_B")]) "id"
      = some "smith2000" ∧
    Dict.get (dashes [("id", "smith2000"), ("title", "a–b")]) "id"
      = some "smith2000" ∧
    Dict.get (titlecase_name [("id", "smith2000"), ("author", "doe, jane")]) "id"
      = Dict.get [("id", "smith2000"), ("author", "doe, jane")] "id" := by
  refine ⟨?_, ?_, ?_⟩
  · exact normalizers_id_preservation.1 [("id", "smith2000"), ("title", "A_B")]
      "smith2000" (by decide) (by decide)
  · exact normalizers_id_preservation.2.1 [("id", "smith2000"), ("title", "a–b")]
      "smith2000" (by decide) (by decide)
  · exact normalizers_id_preservation.2.2.1 [("id", "smith2000"), ("author", "doe, jane")]
